import Mathlib

/-!
Verification of the anatomy-tree / variant-grouping / schema-serialization core
of the propsexporter repository.

The subject code is TypeScript.  The shallow embedding below models:
* JavaScript strings as Lean `String`s;
* a string field that may be `undefined` as `Option String` (`none` = absent);
* JavaScript truthiness of such a field (`undefined`, `''` are falsy);
* a thrown `TypeError` as `none` in an `Option`-valued result;
* `Array.prototype.sort` (ES2019+, stable) as `List.mergeSort`;
* `String.prototype.localeCompare` as code-point lexicographic comparison
  (the collation-sensitive behaviour of real locales is out of scope; only the
  sign of the comparator matters to the sort).

Mutation in the source (a `Map` from path keys to tree-node objects, with
children pushed onto the node found in the map) is embedded functionally:
the parent of the record at index `i` is the record with the largest index
`j ≤ i` whose path key equals the `parentPath` of record `i` (the map entry
is overwritten on duplicate path keys, and the entry for a record is written
before its own parent lookup, exactly as in the source).  The forest is then
the set of map-reachable nodes: children of the node for record `i` are the
later records that resolved their parent to `i`, in input order.  A record
whose parent lookup resolves to itself is pushed onto its own children list
in the source, which makes it unreachable from the root list; accordingly it
appears in no tree of the embedded forest.
-/

/-! ### JavaScript string helpers -/

/-- Truthiness of a string-or-undefined value: `undefined` and `''` are falsy. -/
def jsTruthyS : Option String → Bool
  | none => false
  | some s => !(s = "")

/-- The JavaScript expression `a || b` on string-or-undefined values. -/
def jsOrOpt (a b : Option String) : Option String :=
  if jsTruthyS a then a else b

/-- The JavaScript expression `a || d` where `d` is a (truthy) string literal. -/
def jsOrStr (a : Option String) (d : String) : String :=
  match a with
  | none => d
  | some s => if s = "" then d else s

/-- Template-literal interpolation of a string-or-undefined value. -/
def tmplOpt : Option String → String
  | none => "undefined"
  | some s => s

/-- The path separator used throughout the source: `" > "`. -/
def pathSep : String := " > "

/-- Character-level split on the three-character separator `' > '`, scanning
left to right over non-overlapping occurrences (the semantics of
`String.prototype.split` with a string separator). -/
def splitSegsCh : List Char → List (List Char)
  | [] => [[]]
  | ' ' :: '>' :: ' ' :: rest => [] :: splitSegsCh rest
  | c :: rest =>
      match splitSegsCh rest with
      | s :: ss => (c :: s) :: ss
      | [] => [[c]]

/-- `s.split(' > ')`. -/
def splitSegs (s : String) : List String := (splitSegsCh s.data).map String.mk

/-- `parts.join(' > ')`. -/
def joinSegs (l : List String) : String := String.intercalate pathSep l

/-- `path.split(' > ').slice(0, -1).join(' > ')`: the parent path derived by
dropping the final path segment. -/
def parentSegStr (s : String) : String := joinSegs (splitSegs s).dropLast

/-! ### Element records and the two accepted anatomy shapes (part_002) -/

/-- An element record as read off a JavaScript object: each field is a string
or absent.  (Non-string field values are outside the modelled fragment.) -/
structure ERec where
  name : Option String
  type : Option String
  path : Option String
  parentPath : Option String
deriving DecidableEq

/-- Anatomy data in one of the two accepted shapes: an explicit ordered array
of records, or a flat object keyed by element name. -/
inductive Anat where
  | arr (rs : List ERec)
  | omap (fs : List (String × ERec))
deriving DecidableEq

/-- The `nodesArray` computed at the top of `buildTreeFromAnatomy`: an array
input is used verbatim; an object input is converted entry-wise, deriving
`parentPath` by dropping the final segment of `path`.  In the object branch
the source evaluates `anatomy[name].path.split(' > ')`, which throws when
`path` is not a string; `none` models that thrown `TypeError`. -/
def nodesArrayOf : Anat → Option (List ERec)
  | .arr rs => some rs
  | .omap fs =>
      fs.mapM (fun p =>
        match p.2.path with
        | some s =>
            some { name := some p.1, type := p.2.type, path := some s,
                   parentPath := some (parentSegStr s) }
        | none => none)

/-- `nodeData.path || nodeData.name`: the key under which a record is stored
in the `nodesByPath` map. -/
def pathKeyR (r : ERec) : Option String := jsOrOpt r.path r.name

/-- Path key of the record at index `j` (out-of-range indices are never
queried by the algorithm). -/
def pathKeyAt (recs : List ERec) (j : Nat) : Option String :=
  match recs.get? j with
  | some r => pathKeyR r
  | none => none

/-- Index of the map entry found when the record at index `i` looks up its
parent: the largest `j ≤ i` whose path key equals this record's raw
`parentPath` (the map entry for a key is overwritten by later records, and
the entry for record `i` itself is written before the lookup).  `none` when
`parentPath` is falsy (the root branch) or when no entry matches (the
defensive branch, which also pushes onto the root list). -/
def parentIdx (recs : List ERec) (i : Nat) : Option Nat :=
  match recs.get? i with
  | none => none
  | some r =>
      if jsTruthyS r.parentPath then
        ((List.range (i + 1)).filter
          (fun j => decide (pathKeyAt recs j = r.parentPath))).getLast?
      else none

/-- Indices of records appended to the root list, in processing order. -/
def rootIdxs (recs : List ERec) : List Nat :=
  (List.range recs.length).filter (fun i => decide (parentIdx recs i = none))

/-- Indices of the children of the node built for record `i`, in the order
they are pushed (which is processing order).  Children always have strictly
larger indices; a record that resolves itself as parent is pushed onto its
own children list in the source and thereby becomes unreachable from the
root list, so it is excluded here. -/
def childIdxs (recs : List ERec) (i : Nat) : List Nat :=
  (List.range recs.length).filter
    (fun j => decide (i < j) && decide (parentIdx recs j = some i))

/-- A tree node as produced by `buildTreeFromAnatomy`.  String fields are
stored after the source's fallbacks (`type || 'UNKNOWN'`,
`parentPath || ''`); `name` and `path` are stored template-stringified,
which is observationally equivalent because the source only ever
interpolates them into template literals. -/
inductive TreeNode where
  | mk (name type path parentPath : String) (children : List TreeNode)

def TreeNode.name : TreeNode → String | .mk n _ _ _ _ => n
def TreeNode.type : TreeNode → String | .mk _ t _ _ _ => t
def TreeNode.path : TreeNode → String | .mk _ _ p _ _ => p
def TreeNode.parentPath : TreeNode → String | .mk _ _ _ q _ => q
def TreeNode.children : TreeNode → List TreeNode | .mk _ _ _ _ cs => cs

/-- The record at index `i` (a blank record out of range; never reached). -/
def recAt (recs : List ERec) (i : Nat) : ERec :=
  (recs.get? i).getD ⟨none, none, none, none⟩

/-- Node fields for the record at index `i`, after the source's fallbacks. -/
def fieldsAt (recs : List ERec) (i : Nat) : String × String × String × String :=
  let r := recAt recs i
  (tmplOpt r.name, jsOrStr r.type "UNKNOWN", tmplOpt (jsOrOpt r.path r.name),
   jsOrStr r.parentPath "")

/-- Fuel-bounded construction of the tree rooted at record `i`.  Children
indices strictly increase, so fuel `recs.length` always suffices; the fuel
only serves to make the definition structurally recursive. -/
def buildNodeF (recs : List ERec) : Nat → Nat → TreeNode
  | 0, i =>
      let f := fieldsAt recs i
      .mk f.1 f.2.1 f.2.2.1 f.2.2.2 []
  | fuel + 1, i =>
      let f := fieldsAt recs i
      .mk f.1 f.2.1 f.2.2.1 f.2.2.2 ((childIdxs recs i).map (buildNodeF recs fuel))

/-- The forest (`rootNodes`) built from a canonical record sequence. -/
def buildForest (recs : List ERec) : List TreeNode :=
  (rootIdxs recs).map (buildNodeF recs recs.length)

/-- `buildTreeFromAnatomy` of part_002: normalize the anatomy shape to a
record array, then build the forest. -/
def buildTreeFromAnatomy (a : Anat) : Option (List TreeNode) :=
  (nodesArrayOf a).map buildForest

/-- Fuel-bounded preorder index traversal of the tree rooted at record `i`. -/
def subIdxsF (recs : List ERec) : Nat → Nat → List Nat
  | 0, i => [i]
  | fuel + 1, i => i :: ((childIdxs recs i).map (subIdxsF recs fuel)).flatten

/-- Preorder index traversal of the tree rooted at record `i`. -/
def subIdxs (recs : List ERec) (i : Nat) : List Nat :=
  subIdxsF recs recs.length i

/-- Depth-first (preorder) order of record indices over the whole forest. -/
def dfsIdxs (recs : List ERec) : List Nat :=
  ((rootIdxs recs).map (subIdxs recs)).flatten

/-- Chain of ancestor indices of record `i` (including `i` itself), following
`parentIdx` while it strictly decreases.  Fuel `i` suffices because each step
strictly decreases the index. -/
def ancChainF (recs : List ERec) : Nat → Nat → List Nat
  | 0, i => [i]
  | fuel + 1, i =>
      i :: (match parentIdx recs i with
            | some j => if j < i then ancChainF recs fuel j else []
            | none => [])

/-- Ancestor chain of record `i` with sufficient fuel. -/
def ancChain (recs : List ERec) (i : Nat) : List Nat := ancChainF recs i i

/-- Document-order check for an explicit record sequence: every record that
resolves a parent resolves it to a node on the rightmost path of the forest
built so far, i.e. to a weak ancestor of the immediately preceding record.
This is the property a depth-first (document-order) listing satisfies. -/
def docOrderOK (recs : List ERec) : Bool :=
  (List.range recs.length).all (fun i =>
    match parentIdx recs i with
    | none => true
    | some j => decide (0 < i) && decide (j ∈ ancChain recs (i - 1)))

/-- Preorder list of `(name, type)` pairs of a rendered tree node. -/
def TreeNode.preNT : TreeNode → List (String × String)
  | .mk n t _ _ cs => (n, t) :: (cs.attach.map (fun c => TreeNode.preNT c.1)).flatten
decreasing_by
  have := List.sizeOf_lt_of_mem c.2
  simp only [TreeNode.mk.sizeOf_spec]
  omega

/-- Preorder list of `(name, type)` pairs of a forest. -/
def forestPreNT (ts : List TreeNode) : List (String × String) :=
  (ts.map TreeNode.preNT).flatten

/-! ### Tree renderer (part_002 `renderTree`)

The source accumulates lines in a mutable array; the embedding threads the
accumulator explicitly.  `isLast` for the child at position `idx` is
`idx === children.length - 1`, i.e. the tail of the remaining list is empty. -/

mutual

/-- One call of the source's `renderNode(node, prefix, isLast, isRoot)`,
pushing onto the accumulated line list. -/
def renderNodeAcc (node : TreeNode) (pre : String) (isLast isRoot : Bool)
    (acc : List String) : List String :=
  match node with
  | .mk name ty _ _ cs =>
      let acc1 :=
        if isRoot then
          acc ++ ["📦 " ++ name, "   └─ type: " ++ ty]
        else
          acc ++ [pre ++ (if isLast then "└─ " else "├─ ") ++ name ++
                  (if !(ty = "") then " (" ++ ty ++ ")" else "")]
      let childPre := if isRoot then "   " else pre ++ (if isLast then "   " else "│  ")
      renderKidsAcc cs childPre acc1

/-- The source's `forEach` over children. -/
def renderKidsAcc (cs : List TreeNode) (cp : String) (acc : List String) :
    List String :=
  match cs with
  | [] => acc
  | c :: rest => renderKidsAcc rest cp (renderNodeAcc c cp rest.isEmpty false acc)

end

/-- The source's `forEach` over root nodes: a blank line before every root
except the first, then `renderNode(root, '', true, true)`. -/
def renderRootsAcc (roots : List TreeNode) (first : Bool) (acc : List String) :
    List String :=
  match roots with
  | [] => acc
  | r :: rest =>
      renderRootsAcc rest false
        (renderNodeAcc r "" true true (if first then acc else acc ++ [""]))

/-- `renderTree` of part_002: render all roots and join with newlines. -/
def renderTree (roots : List TreeNode) : String :=
  String.intercalate "\n" (renderRootsAcc roots true [])

/-! ### Compositional renderer descriptions (used to state the rendering
claims; proved equal to the accumulator renderer). -/

/-- The single line emitted for a non-root node: connector (`└─ ` for a last
sibling, `├─ ` otherwise), then the name, then a parenthesized type suffix
when a type is present. -/
def nodeLineOf (pre : String) (isLast : Bool) (t : TreeNode) : String :=
  pre ++ (if isLast then "└─ " else "├─ ") ++ t.name ++
    (if !(t.type = "") then " (" ++ t.type ++ ")" else "")

mutual

/-- Compositional line list of a non-root node. -/
def nodeLines (t : TreeNode) (pre : String) (isLast : Bool) : List String :=
  match t with
  | .mk _ _ _ _ cs =>
      nodeLineOf pre isLast t ::
        kidLines cs (pre ++ (if isLast then "   " else "│  "))

/-- Compositional line list of a child list under a given accumulated
indentation. -/
def kidLines (cs : List TreeNode) (cp : String) : List String :=
  match cs with
  | [] => []
  | c :: rest => nodeLines c cp rest.isEmpty ++ kidLines rest cp

end

/-- Compositional line list of a root node: the `📦` header line naming the
node, an indented line stating its type, then the children rendered under
three spaces of indentation. -/
def rootLinesOf (t : TreeNode) : List String :=
  ["📦 " ++ t.name, "   └─ type: " ++ t.type] ++ kidLines t.children "   "

/-- Blocks of lines joined with exactly one blank line between consecutive
blocks. -/
def blankSepLines : List (List String) → List String
  | [] => []
  | l :: rest => l ++ (rest.map (fun m => "" :: m)).flatten

/-! ### Anatomy comparison and variant grouping (part_002) -/

/-- The array a candidate anatomy is viewed as by `compareAnatomies`: arrays
verbatim, objects by their values in key order. -/
def toCmpArr : Anat → List ERec
  | .arr rs => rs
  | .omap fs => fs.map (·.2)

/-- The positional `(name, type, path)` triple of a record. -/
def tripleOf (r : ERec) : Option String × Option String × Option String :=
  (r.name, r.type, r.path)

/-- Positional comparison of two records by `name`, `type`, `path` with
JavaScript `===` (exact equality of string-or-undefined values). -/
def tripleEq (a b : ERec) : Bool :=
  decide (a.name = b.name) && decide (a.type = b.type) && decide (a.path = b.path)

/-- `compareAnatomies` of part_002: equal lengths and positionally matching
`(name, type, path)` triples. -/
def compareAnatomies (a b : Anat) : Bool :=
  let l1 := toCmpArr a
  let l2 := toCmpArr b
  decide (l1.length = l2.length) && (List.zip l1 l2).all (fun p => tripleEq p.1 p.2)

/-- A variant group: member variant names in first-seen order, together with
the anatomy of the group's first member (`anatomyData[variantList[0]]`;
variant names are keys of one JavaScript object, hence unique). -/
abbrev VGroup := List String × Anat

/-- Process one variant against the group list: scan groups in creation
order, append to the first whose representative compares equal, else open a
new group at the end (the `Map` iterates in insertion order, and the JSON
signature keys of compare-distinct representatives never collide). -/
def addVariant : List VGroup → String × Anat → List VGroup
  | [], v => [([v.1], v.2)]
  | g :: gs, v =>
      if compareAnatomies v.2 g.2 then (g.1 ++ [v.1], g.2) :: gs
      else g :: addVariant gs v

/-- The variant grouping loop of `convertAnatomyToTree`. -/
def groupVariants (vs : List (String × Anat)) : List VGroup :=
  vs.foldl addVariant []

/-- First-seen distinct representative anatomies, in input order (a
two-pass description of the grouping, used to state its characterization). -/
def leaders (vs : List (String × Anat)) : List Anat :=
  vs.foldl (fun ls v => if ls.any (fun rep => compareAnatomies v.2 rep) then ls
                        else ls ++ [v.2]) []

/-- Index of the first representative a candidate anatomy compares equal to. -/
def pickIdx (ls : List Anat) (a : Anat) : Option Nat :=
  ls.findIdx? (fun rep => compareAnatomies a rep)

/-- The 60-character horizontal rule emitted between variant groups. -/
def hrule : String := String.mk (List.replicate 60 '─')

/-- The header line naming the variants of one group: `[Variant: X]` for a
single member, `[Variants: A, B]` with comma-space-joined names otherwise. -/
def groupHeader (mem : List String) : String :=
  if mem.length = 1 then "[Variant: " ++ mem.headD "" ++ "]"
  else "[Variants: " ++ String.intercalate ", " mem ++ "]"

/-- The per-group lines of the multi-group branch: before every group except
the first, a blank line, the rule and a blank line; then the header, a blank
line, and the group's rendered tree (pushed as a single element and joined
with the rest by newlines, exactly as in the source). -/
def variantGroupsLines : List VGroup → Bool → Option (List String)
  | [], _ => some []
  | g :: gs, first => do
      let forest ← buildTreeFromAnatomy g.2
      let rest ← variantGroupsLines gs false
      some ((if first then [] else ["", hrule, ""]) ++
            [groupHeader g.1, "", renderTree forest] ++ rest)

/-- The variant-based branch of `convertAnatomyToTree`: group the variants;
if a single group results, render the first variant's anatomy once; else
render every group with separators and headers. -/
def convertVariantBased (vs : List (String × Anat)) : Option String :=
  let gs := groupVariants vs
  if gs.length = 1 then
    match vs.head? with
    | some v0 => (buildTreeFromAnatomy v0.2).map renderTree
    | none => some ""
  else
    (variantGroupsLines gs true).map (String.intercalate "\n")

/-! ### Scalar formatting in the nested-text (YAML-style) serializer -/

/-- A scalar value reaching `formatYAMLValue`.  JavaScript numbers are IEEE
doubles; integral values in the safe range print their decimal expansion,
which the `Int` model reproduces.  Non-integral numeric formatting is outside
the model. -/
inductive YVal where
  | ystr (s : String)
  | ybool (b : Bool)
  | ynum (n : Int)
deriving DecidableEq

/-- `value.includes(c)` for a single-character needle. -/
def jsIncludesChar (s : String) (c : Char) : Bool := s.data.contains c

/-- `value.startsWith(' ')`. -/
def startsWithSpace (s : String) : Bool := s.data.head? == some ' '

/-- `value.endsWith(' ')`. -/
def endsWithSpace (s : String) : Bool := s.data.getLast? == some ' '

/-- `value.replace(/"/g, '\\"')`: escape every double quote. -/
def escapeQuotes (s : String) : String :=
  String.mk (s.data.flatMap (fun c => if c = '"' then ['\\', '"'] else [c]))

/-- The quoting condition of `formatYAMLValue`: the string contains `:`,
`#` or a newline, or starts or ends with a space. -/
def needsQuote (s : String) : Bool :=
  jsIncludesChar s ':' || jsIncludesChar s '#' || jsIncludesChar s '\n' ||
    startsWithSpace s || endsWithSpace s

/-- `formatYAMLValue` of part_002. -/
def formatYAMLValue : YVal → String
  | .ystr s => if needsQuote s then "\"" ++ escapeQuotes s ++ "\"" else s
  | .ybool b => if b then "true" else "false"
  | .ynum n => toString n

/-! ### Typed-interface and documentation-block serializers (part_002) -/

/-- A property descriptor: declared kind and, for enums, the literal list.
`prop.values ? … : 'string'` tests truthiness: an absent list falls back to
`'string'`, while a present (even empty) array is truthy and is joined. -/
structure PropDesc where
  type : Option String
  values : Option (List String)
deriving DecidableEq

/-- A style-attribute record; each flag records whether the attribute is
present with a truthy value (`cornerRadius` is tested with `!== undefined`,
so its flag records mere definedness). -/
structure StyleRec where
  fills : Bool
  strokes : Bool
  effects : Bool
  fontSize : Bool
  fontWeight : Bool
  width : Bool
  height : Bool
  padding : Bool
  cornerRadiusDefined : Bool
deriving DecidableEq

/-- One component's metadata record, with sections in key iteration order.
Token sections carry only the token keys (the serializers use nothing else). -/
structure Component where
  props : List (String × PropDesc)
  anatomy : List (String × ERec)
  elementStyles : List (String × StyleRec)
  tokens : List (String × List String)

/-- `componentName.replace(/\s+/g, '')`: strip all whitespace. -/
def cleanNameOf (s : String) : String :=
  String.mk (s.data.filter (fun c => !c.isWhitespace))

/-- A single-quoted literal. -/
def quoteLit (v : String) : String := "'" ++ v ++ "'"

/-- The mapped TypeScript type of a declared property kind. -/
def tsPropType (p : PropDesc) : String :=
  if p.type = some "boolean" then "boolean"
  else if p.type = some "string" then "string"
  else if p.type = some "enum" then
    match p.values with
    | some vs => String.intercalate " | " (vs.map quoteLit)
    | none => "string"
  else if p.type = some "instance" then "React.ReactNode"
  else if p.type = some "number" then "number"
  else "any"

/-- One line of a Props interface block. -/
def tsPropLine (pr : String × PropDesc) : String :=
  "  " ++ pr.1 ++ ": " ++ tsPropType pr.2 ++ ";\n"

/-- The Props interface block (omitted when the section is empty). -/
def tsPropsBlock (clean : String) (props : List (String × PropDesc)) : String :=
  if props.length = 0 then ""
  else "interface " ++ clean ++ "Props \x7b\n" ++
       String.join (props.map tsPropLine) ++ "\x7d\n\n"

/-- The Anatomy interface block. -/
def tsAnatomyBlock (clean : String) (anatomy : List (String × ERec)) : String :=
  if anatomy.length = 0 then ""
  else "interface " ++ clean ++ "Anatomy \x7b\n" ++
       String.join (anatomy.map (fun p =>
         "  " ++ p.1 ++ ": '" ++ tmplOpt p.2.type ++ "'; // " ++
           tmplOpt p.2.path ++ "\n")) ++ "\x7d\n\n"

/-- The per-element member of a Styles interface block. -/
def tsStyleMember (p : String × StyleRec) : String :=
  "  " ++ p.1 ++ ": \x7b\n" ++
  (if p.2.fills then "    fills?: any;\n" else "") ++
  (if p.2.strokes then "    strokes?: any;\n" else "") ++
  (if p.2.effects then "    effects?: any;\n" else "") ++
  (if p.2.fontSize then "    fontSize?: number;\n" else "") ++
  (if p.2.fontWeight then "    fontWeight?: number;\n" else "") ++
  (if p.2.width then "    width?: number;\n" else "") ++
  (if p.2.height then "    height?: number;\n" else "") ++
  (if p.2.padding then "    padding?: number;\n" else "") ++
  (if p.2.cornerRadiusDefined then "    cornerRadius?: number;\n" else "") ++
  "  \x7d;\n"

/-- The Styles interface block. -/
def tsStylesBlock (clean : String) (styles : List (String × StyleRec)) : String :=
  if styles.length = 0 then ""
  else "interface " ++ clean ++ "Styles \x7b\n" ++
       String.join (styles.map tsStyleMember) ++ "\x7d\n\n"

/-- The Tokens interface block (elements with empty token maps are skipped). -/
def tsTokensBlock (clean : String) (tokens : List (String × List String)) : String :=
  if tokens.length = 0 then ""
  else "interface " ++ clean ++ "Tokens \x7b\n" ++
       String.join (tokens.map (fun p =>
         if p.2.length = 0 then ""
         else "  " ++ p.1 ++ ": \x7b\n" ++
              String.join (p.2.map (fun k => "    " ++ k ++ ": string;\n")) ++
              "  \x7d;\n")) ++ "\x7d\n\n"

/-- `convertToTypeScript` of part_002. -/
def convertToTypeScript (data : List (String × Component)) : String :=
  String.join (data.map (fun p =>
    let clean := cleanNameOf p.1
    tsPropsBlock clean p.2.props ++ tsAnatomyBlock clean p.2.anatomy ++
      tsStylesBlock clean p.2.elementStyles ++ tsTokensBlock clean p.2.tokens))

/-- The mapped JSDoc type of a declared property kind (enums render their
literal list parenthesized; the absent-values fallback `'string'` is wrapped
by the same parenthesization). -/
def jsdocPropType (p : PropDesc) : String :=
  if p.type = some "boolean" then "boolean"
  else if p.type = some "string" then "string"
  else if p.type = some "enum" then
    "(" ++ (match p.values with
            | some vs => String.intercalate "|" (vs.map quoteLit)
            | none => "string") ++ ")"
  else if p.type = some "instance" then "ReactNode"
  else if p.type = some "number" then "number"
  else "*"

/-- The Props documentation block. -/
def jsdocPropsBlock (clean : String) (props : List (String × PropDesc)) : String :=
  if props.length = 0 then ""
  else "/**\n * @typedef \x7bObject\x7d " ++ clean ++ "Props\n" ++
       String.join (props.map (fun pr =>
         " * @property \x7b" ++ jsdocPropType pr.2 ++ "\x7d " ++ pr.1 ++ "\n")) ++
       " */\n\n"

/-- The Anatomy documentation block. -/
def jsdocAnatomyBlock (clean : String) (anatomy : List (String × ERec)) : String :=
  if anatomy.length = 0 then ""
  else "/**\n * @typedef \x7bObject\x7d " ++ clean ++ "Anatomy\n" ++
       String.join (anatomy.map (fun p =>
         " * @property \x7bstring\x7d " ++ p.1 ++ " - " ++ tmplOpt p.2.type ++
           " (" ++ tmplOpt p.2.path ++ ")\n")) ++
       " */\n\n"

/-- The Styles documentation block. -/
def jsdocStylesBlock (clean : String) (styles : List (String × StyleRec)) : String :=
  if styles.length = 0 then ""
  else "/**\n * @typedef \x7bObject\x7d " ++ clean ++ "Styles\n" ++
       String.join (styles.map (fun p =>
         " * @property \x7bObject\x7d " ++ p.1 ++ "\n")) ++
       " */\n\n"

/-- The Tokens documentation block. -/
def jsdocTokensBlock (clean : String) (tokens : List (String × List String)) : String :=
  if tokens.length = 0 then ""
  else "/**\n * @typedef \x7bObject\x7d " ++ clean ++ "Tokens\n" ++
       String.join (tokens.map (fun p =>
         " * @property \x7bObject\x7d " ++ p.1 ++ "\n")) ++
       " */\n\n"

/-- `convertToJSDoc` of part_002. -/
def convertToJSDoc (data : List (String × Component)) : String :=
  String.join (data.map (fun p =>
    let clean := cleanNameOf p.1
    jsdocPropsBlock clean p.2.props ++ jsdocAnatomyBlock clean p.2.anatomy ++
      jsdocStylesBlock clean p.2.elementStyles ++ jsdocTokensBlock clean p.2.tokens))

/-! ### Code-point string comparison (model of `localeCompare`) -/

/-- Strict code-point comparison of character lists. -/
def clLtB : List Char → List Char → Bool
  | [], [] => false
  | [], _ :: _ => true
  | _ :: _, [] => false
  | a :: as, b :: bs => if a = b then clLtB as bs else decide (a < b)

/-- Strict code-point comparison of strings. -/
def strLtB (a b : String) : Bool := clLtB a.data b.data

/-- Sign model of `a.localeCompare(b)` (only the sign is ever consumed). -/
def strCmpI (a b : String) : Int :=
  if strLtB a b then -1 else if strLtB b a then 1 else 0

/-! ### Legacy flat-mapping normalizer and builder (part_000 / converters.ts)

The older variants of the converters file sort the flat-mapping records by
path before building the forest, and drop (rather than root-append) a record
whose parent path is not found. -/

namespace Legacy

/-- A flat-mapping value: `type` and `path`, each possibly absent
(`node.path || ''` makes an absent path the empty string). -/
structure PRec where
  type : Option String
  path : Option String
deriving DecidableEq

/-- The raw node materialized for each flat-mapping entry. -/
structure LRaw where
  name : String
  type : String
  depth : Nat
  path : String
deriving DecidableEq

/-- The node list materialized from the flat mapping, in key order. -/
def nodesOf (flat : List (String × PRec)) : List LRaw :=
  flat.map (fun p =>
    let path := jsOrStr p.2.path ""
    { name := p.1, type := jsOrStr p.2.type "UNKNOWN",
      depth := (splitSegs path).length - 1, path := path })

/-- The sort comparator on split paths: first differing segment decides by
`localeCompare`; a tie (one path a segment-prefix of the other) is decided
by fewer segments first. -/
def segCmp : List String → List String → Int
  | a :: as, b :: bs => if a = b then segCmp as bs else strCmpI a b
  | as, bs => (as.length : Int) - (bs.length : Int)

/-- The comparator applied to two nodes. -/
def cmpNodes (a b : LRaw) : Int := segCmp (splitSegs a.path) (splitSegs b.path)

/-- The sorted node sequence (`nodes.sort(...)`; `Array.prototype.sort` is
stable and orders `a` before `b` when the comparator is non-positive). -/
def sortedNodes (flat : List (String × PRec)) : List LRaw :=
  (nodesOf flat).mergeSort (fun a b => decide (cmpNodes a b ≤ 0))

/-- Path of the sorted node at index `i`. -/
def pathAtL (ns : List LRaw) (i : Nat) : String :=
  ((ns.get? i).map LRaw.path).getD ""

/-- Whether the sorted node at index `i` takes the root branch
(`pathParts.length === 1`). -/
def isRootL (ns : List LRaw) (i : Nat) : Bool :=
  decide ((splitSegs (pathAtL ns i)).length = 1)

/-- The map entry found when the node at index `i` looks up its parent path:
the largest `j ≤ i` whose path equals this node's path minus its final
segment.  (The entry for `i` itself cannot match: dropping a segment always
shortens the joined string.) -/
def parentRefL (ns : List LRaw) (i : Nat) : Option Nat :=
  ((List.range (i + 1)).filter
    (fun j => decide (pathAtL ns j = parentSegStr (pathAtL ns i)))).getLast?

/-- Root indices: nodes with a single-segment path, in processing order. -/
def rootIdxsL (ns : List LRaw) : List Nat :=
  (List.range ns.length).filter (fun i => isRootL ns i)

/-- Children of the node at index `i`: later multi-segment nodes whose parent
lookup resolved to `i`.  A multi-segment node whose lookup fails is dropped
(this older builder has no defensive root append). -/
def childIdxsL (ns : List LRaw) (i : Nat) : List Nat :=
  (List.range ns.length).filter
    (fun j => decide (i < j) && !isRootL ns j && decide (parentRefL ns j = some i))

/-- A tree node of the legacy builder. -/
inductive LNode where
  | mk (name type : String) (depth : Nat) (path : String) (children : List LNode)

def LNode.name : LNode → String | .mk n _ _ _ _ => n
def LNode.type : LNode → String | .mk _ t _ _ _ => t
def LNode.path : LNode → String | .mk _ _ _ p _ => p
def LNode.children : LNode → List LNode | .mk _ _ _ _ cs => cs

/-- The raw node at index `i` (a blank node out of range; never reached). -/
def rawAt (ns : List LRaw) (i : Nat) : LRaw :=
  (ns.get? i).getD ⟨"", "", 0, ""⟩

/-- Fuel-bounded construction of the legacy tree rooted at index `i`. -/
def buildNodeLF (ns : List LRaw) : Nat → Nat → LNode
  | 0, i =>
      let r := rawAt ns i
      .mk r.name r.type r.depth r.path []
  | fuel + 1, i =>
      let r := rawAt ns i
      .mk r.name r.type r.depth r.path ((childIdxsL ns i).map (buildNodeLF ns fuel))

/-- The legacy forest built from a flat mapping: materialize, sort, build. -/
def buildForestL (flat : List (String × PRec)) : List LNode :=
  let ns := sortedNodes flat
  (rootIdxsL ns).map (buildNodeLF ns ns.length)

/-- Preorder node list of a legacy tree. -/
def LNode.pre : LNode → List LNode
  | .mk n t d p cs => .mk n t d p cs :: (cs.attach.map (fun c => LNode.pre c.1)).flatten
decreasing_by
  have := List.sizeOf_lt_of_mem c.2
  simp only [LNode.mk.sizeOf_spec]
  omega

/-- All nodes of the legacy forest. -/
def allLNodes (ts : List LNode) : List LNode := (ts.map LNode.pre).flatten

/-- The claim-side canonical order on split paths: equality, or Mathlib's
lexicographic order on segment lists over strict code-point string
comparison (in which a proper segment-prefix precedes its extensions, i.e.
ties go to the shorter path). -/
def specSegLe (as bs : List String) : Prop :=
  as = bs ∨ List.Lex (fun x y => strLtB x y = true) as bs

/-- The claim-side order on nodes, comparing split paths. -/
def specLeRaw (a b : LRaw) : Prop := specSegLe (splitSegs a.path) (splitSegs b.path)

end Legacy

mutual

/-- Decidable equality of legacy tree nodes (derivation does not handle the
nested recursion, so it is spelled out). -/
def Legacy.LNode.decEq : (a b : Legacy.LNode) → Decidable (a = b)
  | .mk n₁ t₁ d₁ p₁ cs₁, .mk n₂ t₂ d₂ p₂ cs₂ =>
      match String.decEq n₁ n₂ with
      | isFalse h => isFalse (by intro he; cases he; exact h rfl)
      | isTrue h₁ =>
        match String.decEq t₁ t₂ with
        | isFalse h => isFalse (by intro he; cases he; exact h rfl)
        | isTrue h₂ =>
          match Nat.decEq d₁ d₂ with
          | isFalse h => isFalse (by intro he; cases he; exact h rfl)
          | isTrue h₃ =>
            match String.decEq p₁ p₂ with
            | isFalse h => isFalse (by intro he; cases he; exact h rfl)
            | isTrue h₄ =>
              match Legacy.LNode.decEqList cs₁ cs₂ with
              | isFalse h => isFalse (by intro he; cases he; exact h rfl)
              | isTrue h₅ => isTrue (by rw [h₁, h₂, h₃, h₄, h₅])

/-- Decidable equality of legacy tree node lists. -/
def Legacy.LNode.decEqList : (as bs : List Legacy.LNode) → Decidable (as = bs)
  | [], [] => isTrue rfl
  | [], _ :: _ => isFalse (by intro h; cases h)
  | _ :: _, [] => isFalse (by intro h; cases h)
  | a :: as, b :: bs =>
      match Legacy.LNode.decEq a b with
      | isFalse h => isFalse (by intro he; cases he; exact h rfl)
      | isTrue h₁ =>
        match Legacy.LNode.decEqList as bs with
        | isFalse h => isFalse (by intro he; cases he; exact h rfl)
        | isTrue h₂ => isTrue (by rw [h₁, h₂])

end

instance : DecidableEq Legacy.LNode := Legacy.LNode.decEq

/-! ### Untyped top-level dispatch of `convertAnatomyToTree` (part_002)

The guard and the variant detection inspect an arbitrary JavaScript value,
so they are modelled over a JSON-like value universe.  `Option`-valued
results use `none` both for a thrown `TypeError` and for inputs outside the
string-fielded fragment modelled by `ERec`. -/

inductive JVal where
  | jnull
  | jundefined
  | jbool (b : Bool)
  | jnum (n : Int)
  | jstr (s : String)
  | jarr (xs : List JVal)
  | jobj (fs : List (String × JVal))

/-- JavaScript truthiness.  (The `Int` model of numbers makes `0` the only
falsy number; `NaN` is outside the model.) -/
def jsTruthy : JVal → Bool
  | .jnull => false
  | .jundefined => false
  | .jbool b => b
  | .jnum n => !(n = 0)
  | .jstr s => !(s = "")
  | .jarr _ => true
  | .jobj _ => true

/-- `typeof v === 'object'` (true for `null`, arrays and plain objects). -/
def typeofObject : JVal → Bool
  | .jnull => true
  | .jarr _ => true
  | .jobj _ => true
  | _ => false

/-- Property read `v[k]` on a non-nullish value: first matching key of an
object, `undefined` otherwise (string index/length properties and array
index properties are never read by the modelled code paths with a
non-numeric key). -/
def getField (v : JVal) (k : String) : JVal :=
  match v with
  | .jobj fs => ((fs.find? (fun p => decide (p.1 = k))).map (·.2)).getD .jundefined
  | _ => .jundefined

/-- `anatomyData[Object.keys(anatomyData)[0]]`: the first value of an object
(index `"0"` of an array), `undefined` when there is none. -/
def firstVal : JVal → JVal
  | .jobj fs => ((fs.head?).map (·.2)).getD .jundefined
  | .jarr xs => xs.headD .jundefined
  | _ => .jundefined

/-- `v === undefined`. -/
def isUndef : JVal → Bool
  | .jundefined => true
  | _ => false

/-- The variant detection of `convertAnatomyToTree`: the first value is
truthy and is an array, or is object-typed with both its `type` and its
`path` fields reading as `undefined`. -/
def isVariantBasedJ (fv : JVal) : Bool :=
  jsTruthy fv &&
    ((match fv with | .jarr _ => true | _ => false) ||
     (typeofObject fv && isUndef (getField fv "type") &&
        isUndef (getField fv "path")))

/-- Read a JavaScript value as an element record: object fields that are
strings become present fields, absent (or explicitly `undefined`) fields
become `none`; a primitive non-nullish value yields a record of absent
fields (property reads on it give `undefined`); reading a field of `null`
or `undefined` throws.  Object- or number-valued fields are outside the
modelled fragment and also map to `none`. -/
def asOptStr : JVal → Option (Option String)
  | .jundefined => some none
  | .jstr s => some (some s)
  | _ => none

def toERecJ : JVal → Option ERec
  | .jnull => none
  | .jundefined => none
  | .jobj fs => do
      let n ← asOptStr (getField (.jobj fs) "name")
      let t ← asOptStr (getField (.jobj fs) "type")
      let p ← asOptStr (getField (.jobj fs) "path")
      let q ← asOptStr (getField (.jobj fs) "parentPath")
      some ⟨n, t, p, q⟩
  | .jarr _ => some ⟨none, none, none, none⟩
  | _ => some ⟨none, none, none, none⟩

/-- Read a JavaScript value as one variant's anatomy (array of records or
object of records). -/
def toAnatJ : JVal → Option Anat
  | .jarr xs => (xs.mapM toERecJ).map Anat.arr
  | .jobj fs => (fs.mapM (fun p => (toERecJ p.2).map (p.1, ·))).map Anat.omap
  | _ => none

/-- Read the top-level value as a variant-name-to-anatomy mapping (an array
at the top level enumerates with its index strings as names). -/
def toVariantsJ : JVal → Option (List (String × Anat))
  | .jobj fs => fs.mapM (fun p => (toAnatJ p.2).map (p.1, ·))
  | .jarr xs => (xs.enum).mapM (fun p => (toAnatJ p.2).map (toString p.1, ·))
  | _ => none

/-- `convertAnatomyToTree` of part_002 at the untyped top level: the guard
returns `''` for falsy or non-object input; otherwise the first value
decides between the variant-based branch and the single-anatomy branch. -/
def convertAnatomyToTreeJ (v : JVal) : Option String :=
  if !(jsTruthy v && typeofObject v) then some ""
  else if isVariantBasedJ (firstVal v) then
    (toVariantsJ v).bind convertVariantBased
  else
    match v with
    | .jarr xs => (xs.mapM toERecJ).map (fun rs => renderTree (buildForest rs))
    | .jobj fs =>
        ((fs.mapM (fun p => (toERecJ p.2).map (p.1, ·))).map Anat.omap).bind
          (fun a => (buildTreeFromAnatomy a).map renderTree)
    | _ => some ""

/-- Replace every record's `parentPath` by `none` (used to state that the
comparison ignores attributes other than the positional triple). -/
def erasePP : Anat → Anat
  | .arr rs => .arr (rs.map (fun r => { r with parentPath := none }))
  | .omap fs => .omap (fs.map (fun p => (p.1, { p.2 with parentPath := none })))

/-! ## Theorems

### Claim C8: scalar formatting in the generic nested-text serializer -/

theorem escapeQuotes_data (s : String) :
    (escapeQuotes s).data = s.data.flatMap (fun c => if c = '"' then ['\\', '"'] else [c]) := rfl

theorem length_le_escapeQuotes (s : String) : s.data.length ≤ (escapeQuotes s).data.length := by
  rw [escapeQuotes_data]
  induction s.data with
  | nil => simp
  | cons c cs ih =>
      simp only [List.flatMap_cons, List.length_append, List.length_cons]
      by_cases h : c = '"' <;> simp only [h, if_pos, if_true, if_neg, if_false, List.length_cons,
        List.length_nil, reduceIte] <;> omega

theorem needsQuote_iff (s : String) :
    needsQuote s = true ↔
      (':' ∈ s.data ∨ '#' ∈ s.data ∨ '\n' ∈ s.data ∨
       s.data.head? = some ' ' ∨ s.data.getLast? = some ' ') := by
  simp [needsQuote, jsIncludesChar, startsWithSpace, endsWithSpace, List.elem_iff, or_assoc]

/-- C8: in the generic nested-text serializer, a scalar string is emitted
wrapped in double quotes with every internal double quote escaped as `\"`
iff it contains `:`, contains `#`, contains a newline, or starts or ends
with a space; every other string is emitted verbatim, booleans as
`true`/`false`, and numbers by decimal string conversion. -/
theorem c8_yaml_scalar_formatting :
    (∀ s : String,
      (formatYAMLValue (.ystr s) = "\"" ++ escapeQuotes s ++ "\"" ↔
        (':' ∈ s.data ∨ '#' ∈ s.data ∨ '\n' ∈ s.data ∨
         s.data.head? = some ' ' ∨ s.data.getLast? = some ' ')) ∧
      (¬ (':' ∈ s.data ∨ '#' ∈ s.data ∨ '\n' ∈ s.data ∨
          s.data.head? = some ' ' ∨ s.data.getLast? = some ' ') →
        formatYAMLValue (.ystr s) = s) ∧
      (escapeQuotes s).data =
        s.data.flatMap (fun c => if c = '"' then ['\\', '"'] else [c])) ∧
    (∀ b, formatYAMLValue (.ybool b) = if b then "true" else "false") ∧
    (∀ n : Int, formatYAMLValue (.ynum n) = toString n) := by
  refine ⟨fun s => ⟨⟨?_, ?_⟩, ?_, escapeQuotes_data s⟩, fun b => rfl, fun n => rfl⟩
  · intro h
    by_cases hq : needsQuote s
    · exact (needsQuote_iff s).mp hq
    · exfalso
      have hs : formatYAMLValue (.ystr s) = s := by simp [formatYAMLValue, hq]
      rw [hs] at h
      have hl := congrArg (fun t => t.data.length) h
      simp only [String.data_append, List.length_append] at hl
      have h2 := length_le_escapeQuotes s
      simp only [List.length_cons, List.length_nil] at hl
      omega
  · intro h
    have hq : needsQuote s = true := (needsQuote_iff s).mpr h
    simp [formatYAMLValue, hq]
  · intro h
    have hq : needsQuote s = false := by
      rcases Bool.eq_false_or_eq_true (needsQuote s) with h' | h'
      · exact absurd ((needsQuote_iff s).mp h') h
      · exact h'
    simp [formatYAMLValue, hq]

/-- Witness for C8: a plain string passes through verbatim, and a string
containing `:` is quoted. -/
theorem c8_yaml_scalar_formatting_witness :
    formatYAMLValue (.ystr "plain") = "plain" ∧
    formatYAMLValue (.ystr "a:b") = "\"" ++ escapeQuotes "a:b" ++ "\"" :=
  ⟨(c8_yaml_scalar_formatting.1 "plain").2.1 (by decide),
   ((c8_yaml_scalar_formatting.1 "a:b").1).mpr (by decide)⟩

/-! ### Claim C9: absent or non-object input -/

/-- C9: for every input that is absent (`null` or `undefined`) or not
object-like, `convertAnatomyToTree` returns the empty string (and, the
result being `some`, does not throw). -/
theorem c9_absent_or_nonobject_input_empty :
    ∀ v : JVal, (v = .jnull ∨ v = .jundefined ∨ typeofObject v = false) →
      convertAnatomyToTreeJ v = some "" := by
  intro v h
  rcases h with h | h | h
  · subst h; rfl
  · subst h; rfl
  · unfold convertAnatomyToTreeJ
    rw [show (jsTruthy v && typeofObject v) = false by simp [h]]
    rfl

/-- Witness for C9 at `null` and at a string. -/
theorem c9_witness :
    convertAnatomyToTreeJ .jnull = some "" ∧ convertAnatomyToTreeJ (.jstr "hello") = some "" :=
  ⟨c9_absent_or_nonobject_input_empty _ (Or.inl rfl),
   c9_absent_or_nonobject_input_empty _ (Or.inr (Or.inr rfl))⟩

/-! ### Claim C10: variant detection from the first value -/

theorem isUndef_iff (v : JVal) : isUndef v = true ↔ v = .jundefined := by
  cases v <;> simp [isUndef]

/-- C10: `convertAnatomyToTree` treats its input as a variant mapping iff
the first key's value is an array, or is an object whose `type` and `path`
fields both read as `undefined`; consequently a flat-mapping anatomy whose
first record carries neither field is processed through the variant-based
branch. -/
theorem c10_variant_detection :
    (∀ fv : JVal, isVariantBasedJ fv = true ↔
        ((∃ xs, fv = .jarr xs) ∨
         (∃ gs, fv = .jobj gs ∧ getField fv "type" = .jundefined ∧
            getField fv "path" = .jundefined))) ∧
    (∀ (k : String) (r rest : List (String × JVal)),
        (∀ q ∈ r, q.1 ≠ "type") → (∀ q ∈ r, q.1 ≠ "path") →
        isVariantBasedJ (firstVal (.jobj ((k, .jobj r) :: rest))) = true ∧
        convertAnatomyToTreeJ (.jobj ((k, .jobj r) :: rest)) =
          (toVariantsJ (.jobj ((k, .jobj r) :: rest))).bind convertVariantBased) := by
  constructor
  · intro fv
    cases fv with
    | jarr xs => simp [isVariantBasedJ, jsTruthy]
    | jobj gs =>
        simp only [isVariantBasedJ, jsTruthy, typeofObject, Bool.true_and, Bool.false_or,
          Bool.and_eq_true, isUndef_iff]
        constructor
        · rintro ⟨h1, h2⟩; exact Or.inr ⟨gs, rfl, h1, h2⟩
        · rintro (⟨xs, h⟩ | ⟨gs', h, h1, h2⟩)
          · cases h
          · exact ⟨h1, h2⟩
    | jnull => simp [isVariantBasedJ, jsTruthy]
    | jundefined => simp [isVariantBasedJ, jsTruthy]
    | jbool b => cases b <;> simp [isVariantBasedJ, jsTruthy, typeofObject]
    | jnum n => simp [isVariantBasedJ, jsTruthy, typeofObject]
    | jstr s => simp [isVariantBasedJ, jsTruthy, typeofObject]
  · intro k r rest ht hp
    have hft : getField (.jobj r) "type" = .jundefined := by
      simp only [getField]
      rw [List.find?_eq_none.mpr]
      · rfl
      · intro q hq
        simp only [decide_eq_true_eq]
        exact ht q hq
    have hfp : getField (.jobj r) "path" = .jundefined := by
      simp only [getField]
      rw [List.find?_eq_none.mpr]
      · rfl
      · intro q hq
        simp only [decide_eq_true_eq]
        exact hp q hq
    have hfv : firstVal (.jobj ((k, .jobj r) :: rest)) = .jobj r := rfl
    have hvb : isVariantBasedJ (firstVal (.jobj ((k, .jobj r) :: rest))) = true := by
      rw [hfv]
      simp [isVariantBasedJ, jsTruthy, typeofObject, hft, hfp, isUndef]
    refine ⟨hvb, ?_⟩
    unfold convertAnatomyToTreeJ
    rw [show (jsTruthy (JVal.jobj ((k, .jobj r) :: rest)) &&
          typeofObject (JVal.jobj ((k, .jobj r) :: rest))) = true from rfl]
    rw [hvb]
    rfl

/-- Witness for C10 at a concrete flat-shaped object whose first record
lacks both fields. -/
theorem c10_witness :
    isVariantBasedJ (firstVal (.jobj [("A", .jobj [("foo", .jstr "x")])])) = true ∧
    convertAnatomyToTreeJ (.jobj [("A", .jobj [("foo", .jstr "x")])]) =
      (toVariantsJ (.jobj [("A", .jobj [("foo", .jstr "x")])])).bind convertVariantBased :=
  c10_variant_detection.2 "A" [("foo", .jstr "x")] []
    (by decide) (by decide)

/-! ### Claim C7: enum property serialization -/

/-- C7: a prop of kind `enum` with a non-empty values list renders, in the
typed-interface serializer, as the single-quoted literals joined by `' | '`
and, in the documentation-block serializer, as a parenthesized list of the
same literals joined by `'|'`; when the values list is absent both fall back
to the mapped type `string` (which the documentation-block format wraps in
its enum parentheses). -/
theorem c7_enum_prop_types :
    (∀ vs : List String, vs ≠ [] →
       tsPropType ⟨some "enum", some vs⟩ = String.intercalate " | " (vs.map quoteLit)) ∧
    (tsPropType ⟨some "enum", none⟩ = "string") ∧
    (∀ vs : List String, vs ≠ [] →
       jsdocPropType ⟨some "enum", some vs⟩ =
         "(" ++ String.intercalate "|" (vs.map quoteLit) ++ ")") ∧
    (jsdocPropType ⟨some "enum", none⟩ = "(" ++ "string" ++ ")") ∧
    (∀ (cname pname : String) (p : PropDesc),
       convertToTypeScript [(cname, ⟨[(pname, p)], [], [], []⟩)] =
         "interface " ++ cleanNameOf cname ++ "Props \x7b\n" ++
           ("  " ++ pname ++ ": " ++ tsPropType p ++ ";\n") ++ "\x7d\n\n") ∧
    (∀ (cname pname : String) (p : PropDesc),
       convertToJSDoc [(cname, ⟨[(pname, p)], [], [], []⟩)] =
         "/**\n * @typedef \x7bObject\x7d " ++ cleanNameOf cname ++ "Props\n" ++
           (" * @property \x7b" ++ jsdocPropType p ++ "\x7d " ++ pname ++ "\n") ++
           " */\n\n") := by
  refine ⟨fun vs _ => rfl, rfl, fun vs _ => rfl, rfl, ?_, ?_⟩
  · intro cname pname p
    show String.join [tsPropsBlock (cleanNameOf cname) [(pname, p)] ++ "" ++ "" ++ ""] = _
    simp [tsPropsBlock, tsPropLine, String.join]
  · intro cname pname p
    show String.join [jsdocPropsBlock (cleanNameOf cname) [(pname, p)] ++ "" ++ "" ++ ""] = _
    simp [jsdocPropsBlock, String.join]

/-- Witness for C7 at the spec's `["sm", "md", "lg"]` example. -/
theorem c7_witness :
    tsPropType ⟨some "enum", some ["sm", "md", "lg"]⟩ = "'sm' | 'md' | 'lg'" ∧
    jsdocPropType ⟨some "enum", some ["sm", "md", "lg"]⟩ = "('sm'|'md'|'lg')" :=
  ⟨(c7_enum_prop_types.1 ["sm", "md", "lg"] (by decide)).trans (by decide),
   (c7_enum_prop_types.2.2.1 ["sm", "md", "lg"] (by decide)).trans (by decide)⟩

/-! ### Claim C6: renderer line structure -/

theorem TreeNode.ind (P : TreeNode → Prop)
    (h : ∀ n t p q cs, (∀ c ∈ cs, P c) → P (.mk n t p q cs)) : ∀ x, P x
  | .mk n t p q cs => h n t p q cs (fun c hc => TreeNode.ind P h c)
decreasing_by
  have := List.sizeOf_lt_of_mem hc
  simp only [TreeNode.mk.sizeOf_spec]
  omega

theorem renderKidsAcc_eq : ∀ (cs : List TreeNode) (cp : String) (acc : List String),
    (∀ c ∈ cs, ∀ pre l acc', renderNodeAcc c pre l false acc' = acc' ++ nodeLines c pre l) →
    renderKidsAcc cs cp acc = acc ++ kidLines cs cp := by
  intro cs
  induction cs with
  | nil => intro cp acc ih; simp [renderKidsAcc, kidLines]
  | cons c rest ihr =>
      intro cp acc ih
      rw [renderKidsAcc, kidLines, ih c (List.mem_cons_self c rest),
        ihr cp _ (fun d hd => ih d (List.mem_cons_of_mem c hd)), List.append_assoc]

theorem renderNodeAcc_eq (t : TreeNode) :
    ∀ pre l acc, renderNodeAcc t pre l false acc = acc ++ nodeLines t pre l := by
  induction t using TreeNode.ind with
  | h n ty p q cs ih =>
      intro pre l acc
      rw [renderNodeAcc, nodeLines]
      simp only [Bool.false_eq_true, if_neg, if_false, reduceIte]
      rw [renderKidsAcc_eq cs _ _ ih, List.append_assoc]
      rfl

theorem renderNodeAcc_root_eq (t : TreeNode) (acc : List String) :
    renderNodeAcc t "" true true acc = acc ++ rootLinesOf t := by
  cases t with
  | mk n ty p q cs =>
      rw [renderNodeAcc]
      simp only [reduceIte]
      rw [renderKidsAcc_eq cs _ _ (fun c _ pre l acc' => renderNodeAcc_eq c pre l acc'),
        rootLinesOf, List.append_assoc]
      rfl

theorem renderRootsAcc_false_eq (ts : List TreeNode) (acc : List String) :
    renderRootsAcc ts false acc = acc ++ (ts.map (fun t => "" :: rootLinesOf t)).flatten := by
  induction ts generalizing acc with
  | nil => simp [renderRootsAcc]
  | cons t rest ih =>
      rw [renderRootsAcc, renderNodeAcc_root_eq, ih]
      simp

/-- C6: the part_002 tree renderer emits, for every root node, a `📦` header
line with its name followed by an indented type line and its children under
three spaces of indentation; for every non-root node exactly one line made
of the accumulated indentation, the connector (`└─ ` last sibling, `├─ `
otherwise), the name and a parenthesized type suffix when a type is present;
per-depth indentation accumulates `'   '` below a last sibling and `'│  '`
otherwise; and consecutive root blocks are separated by one blank line. -/
theorem c6_renderer_line_structure :
    (∀ ts : List TreeNode,
       renderTree ts = String.intercalate "\n" (blankSepLines (ts.map rootLinesOf))) ∧
    (∀ t : TreeNode,
       rootLinesOf t = ["📦 " ++ t.name, "   └─ type: " ++ t.type] ++
         kidLines t.children "   ") ∧
    (∀ (t : TreeNode) (pre : String) (isLast : Bool) (acc : List String),
       renderNodeAcc t pre isLast false acc = acc ++ nodeLines t pre isLast) ∧
    (∀ (t : TreeNode) (pre : String) (isLast : Bool),
       nodeLines t pre isLast =
         nodeLineOf pre isLast t ::
           kidLines t.children (pre ++ (if isLast then "   " else "│  "))) ∧
    (∀ (pre : String) (isLast : Bool) (t : TreeNode),
       nodeLineOf pre isLast t =
         pre ++ (if isLast then "└─ " else "├─ ") ++ t.name ++
           (if !(t.type = "") then " (" ++ t.type ++ ")" else "")) := by
  refine ⟨?_, fun t => rfl, fun t pre l acc => renderNodeAcc_eq t pre l acc,
    fun t pre l => ?_, fun pre l t => rfl⟩
  · intro ts
    rw [renderTree]
    cases ts with
    | nil => rfl
    | cons t rest =>
        rw [renderRootsAcc, renderNodeAcc_root_eq, renderRootsAcc_false_eq]
        simp [blankSepLines, List.map_map, Function.comp_def]
  · cases t with
    | mk n ty p q cs =>
        rw [nodeLines]
        simp [TreeNode.children]

/-! ### Claim C5: uniform vs. grouped variant rendering -/

theorem variantGroupsLines_false_eq :
    ∀ gs : List VGroup, (∀ g ∈ gs, (buildTreeFromAnatomy g.2).isSome) →
      variantGroupsLines gs false =
        some ((gs.map (fun g =>
          ["", hrule, "", groupHeader g.1, "",
           renderTree ((buildTreeFromAnatomy g.2).getD [])])).flatten) := by
  intro gs
  induction gs with
  | nil => intro _; rfl
  | cons g rest ih =>
      intro hs
      obtain ⟨f, hf⟩ := Option.isSome_iff_exists.mp (hs g (List.mem_cons_self g rest))
      rw [variantGroupsLines, hf, ih (fun d hd => hs d (List.mem_cons_of_mem g hd))]
      simp [hf]

/-- C5: when the variants form exactly one group, the variant branch renders
the first variant's anatomy tree once, with no header and no rule; with two
or more groups, the output lines are, for the first group, its header, a
blank line and its rendered tree, and, for every later group, a blank line,
the 60-character rule and a blank line, then its header, a blank line and
its rendered tree; headers read `[Variant: X]` for one member and
`[Variants: A, B]` with comma-space-joined names for several. -/
theorem c5_variant_group_rendering :
    (∀ (vs : List (String × Anat)) (v0 : String × Anat) (rest : List (String × Anat)),
       vs = v0 :: rest → (groupVariants vs).length = 1 →
       convertVariantBased vs = (buildTreeFromAnatomy v0.2).map renderTree) ∧
    (∀ (vs : List (String × Anat)) (g0 : VGroup) (grest : List VGroup),
       groupVariants vs = g0 :: grest → grest ≠ [] →
       (∀ g ∈ groupVariants vs, (buildTreeFromAnatomy g.2).isSome) →
       convertVariantBased vs =
         (buildTreeFromAnatomy g0.2).map (fun f0 =>
           String.intercalate "\n"
             ([groupHeader g0.1, "", renderTree f0] ++
              (grest.map (fun g =>
                ["", hrule, "", groupHeader g.1, "",
                 renderTree ((buildTreeFromAnatomy g.2).getD [])])).flatten))) ∧
    hrule.data = List.replicate 60 '─' ∧
    (∀ mem : List String, mem.length = 1 →
       groupHeader mem = "[Variant: " ++ mem.headD "" ++ "]") ∧
    (∀ mem : List String, mem.length ≠ 1 →
       groupHeader mem = "[Variants: " ++ String.intercalate ", " mem ++ "]") := by
  refine ⟨?_, ?_, rfl, ?_, ?_⟩
  · intro vs v0 rest hvs h1
    subst hvs
    rw [convertVariantBased]
    simp only [h1, if_pos]
    rfl
  · intro vs g0 grest hgs hne hs
    rw [convertVariantBased]
    have hlen : (groupVariants vs).length ≠ 1 := by
      rw [hgs]
      cases grest with
      | nil => exact absurd rfl hne
      | cons a b => simp
    rw [if_neg hlen, hgs]
    obtain ⟨f0, hf0⟩ := Option.isSome_iff_exists.mp
      (hs g0 (hgs ▸ List.mem_cons_self g0 grest))
    rw [variantGroupsLines, hf0,
      variantGroupsLines_false_eq grest
        (fun d hd => hs d (hgs ▸ List.mem_cons_of_mem g0 hd))]
    simp [hf0]
  · intro mem h1
    rw [groupHeader, if_pos h1]
  · intro mem h1
    rw [groupHeader, if_neg h1]

/-- Witness for C5: a two-variant uniform mapping renders once; a two-group
mapping renders with headers and rule separators. -/
theorem c5_variant_group_rendering_witness :
    convertVariantBased
        [("A", Anat.arr [⟨some "Frame", some "FRAME", some "Frame", some ""⟩]),
         ("B", Anat.arr [⟨some "Frame", some "FRAME", some "Frame", some ""⟩])] =
      (buildTreeFromAnatomy (Anat.arr [⟨some "Frame", some "FRAME", some "Frame", some ""⟩])).map
        renderTree ∧
    convertVariantBased
        [("A", Anat.arr [⟨some "Frame", some "FRAME", some "Frame", some ""⟩]),
         ("C", Anat.arr [⟨some "Other", some "TEXT", some "Other", some ""⟩])] =
      (buildTreeFromAnatomy (Anat.arr [⟨some "Frame", some "FRAME", some "Frame", some ""⟩])).map
        (fun f0 =>
          String.intercalate "\n"
            ([groupHeader ["A"], "", renderTree f0] ++
             ([(["C"], Anat.arr [⟨some "Other", some "TEXT", some "Other", some ""⟩])].map
               (fun g =>
                 ["", hrule, "", groupHeader g.1, "",
                  renderTree ((buildTreeFromAnatomy g.2).getD [])])).flatten)) :=
  ⟨c5_variant_group_rendering.1 _ _ _ rfl (by decide),
   c5_variant_group_rendering.2.1 _
     (["A"], Anat.arr [⟨some "Frame", some "FRAME", some "Frame", some ""⟩])
     [(["C"], Anat.arr [⟨some "Other", some "TEXT", some "Other", some ""⟩])]
     (by decide) (by decide) (by decide)⟩

/-! ### Claim C4: anatomy equality and variant grouping -/

theorem tripleEq_iff (a b : ERec) : tripleEq a b = true ↔ tripleOf a = tripleOf b := by
  simp [tripleEq, tripleOf, Prod.ext_iff, and_assoc]

theorem compareAnatomies_iff (a b : Anat) :
    compareAnatomies a b = true ↔
      ((toCmpArr a).length = (toCmpArr b).length ∧
       ∀ i : Nat, ((toCmpArr a)[i]?).map tripleOf = ((toCmpArr b)[i]?).map tripleOf) := by
  unfold compareAnatomies
  simp only [Bool.and_eq_true, decide_eq_true_eq, List.all_eq_true]
  constructor
  · rintro ⟨hlen, hall⟩
    refine ⟨hlen, fun i => ?_⟩
    by_cases hi : i < (toCmpArr a).length
    · have hi' : i < (toCmpArr b).length := hlen ▸ hi
      have hz : ((toCmpArr a).zip (toCmpArr b))[i]? = some ((toCmpArr a)[i], (toCmpArr b)[i]) := by
        rw [List.getElem?_zip_eq_some]
        exact ⟨List.getElem?_eq_getElem hi, List.getElem?_eq_getElem hi'⟩
      have hmem := List.getElem?_mem hz
      have := (tripleEq_iff _ _).mp (hall _ hmem)
      rw [List.getElem?_eq_getElem hi, List.getElem?_eq_getElem hi']
      simp [this]
    · have hx : (toCmpArr a)[i]? = none := List.getElem?_eq_none (Nat.le_of_not_lt hi)
      have hy : (toCmpArr b)[i]? = none :=
        List.getElem?_eq_none (hlen ▸ Nat.le_of_not_lt hi)
      rw [hx, hy]
  · rintro ⟨hlen, hall⟩
    refine ⟨hlen, fun p hp => ?_⟩
    obtain ⟨i, hilt, hi⟩ := List.getElem_of_mem hp
    have hz : ((toCmpArr a).zip (toCmpArr b))[i]? = some p := by
      rw [List.getElem?_eq_getElem hilt, hi]
    rw [List.getElem?_zip_eq_some] at hz
    obtain ⟨h1, h2⟩ := hz
    have := hall i
    rw [h1, h2] at this
    simp only [Option.map_some', Option.some_inj] at this
    exact (tripleEq_iff _ _).mpr this

theorem compareAnatomies_refl (a : Anat) : compareAnatomies a a = true :=
  (compareAnatomies_iff a a).mpr ⟨rfl, fun _ => rfl⟩

theorem toCmpArr_erasePP (a : Anat) :
    toCmpArr (erasePP a) = (toCmpArr a).map (fun r => { r with parentPath := none }) := by
  cases a <;> simp [toCmpArr, erasePP, List.map_map]

theorem compareAnatomies_erasePP (a b : Anat) :
    compareAnatomies (erasePP a) (erasePP b) = compareAnatomies a b := by
  have key : ∀ (x : Anat) (i : Nat),
      ((toCmpArr (erasePP x))[i]?).map tripleOf = ((toCmpArr x)[i]?).map tripleOf := by
    intro x i
    rw [toCmpArr_erasePP, List.getElem?_map, Option.map_map]
    rfl
  have hlen : ∀ x : Anat, (toCmpArr (erasePP x)).length = (toCmpArr x).length := by
    intro x; rw [toCmpArr_erasePP, List.length_map]
  have hiff : compareAnatomies (erasePP a) (erasePP b) = true ↔
      compareAnatomies a b = true := by
    rw [compareAnatomies_iff, compareAnatomies_iff, hlen, hlen]
    constructor <;> rintro ⟨h1, h2⟩ <;> refine ⟨h1, fun i => ?_⟩
    · rw [← key a i, ← key b i]; exact h2 i
    · rw [key a i, key b i]; exact h2 i
  cases hb : compareAnatomies a b with
  | true => exact hiff.mpr hb
  | false =>
      cases he : compareAnatomies (erasePP a) (erasePP b) with
      | false => rfl
      | true => exact absurd (hiff.mp he) (by simp [hb])

theorem pickIdx_lt {ls : List Anat} {a : Anat} {k : Nat} (h : pickIdx ls a = some k) :
    k < ls.length := by
  rw [pickIdx, List.findIdx?_eq_some_iff_getElem] at h
  exact h.1

theorem pickIdx_append_of_some {ls ls' : List Anat} {a : Anat} {k : Nat}
    (h : pickIdx ls a = some k) : pickIdx (ls ++ ls') a = some k := by
  rw [pickIdx, List.findIdx?_append]
  rw [pickIdx] at h
  rw [h]
  rfl

theorem pickIdx_append_of_none {ls ls' : List Anat} {a : Anat}
    (h : pickIdx ls a = none) :
    pickIdx (ls ++ ls') a = (pickIdx ls' a).map (· + ls.length) := by
  rw [pickIdx, List.findIdx?_append]
  rw [pickIdx] at h
  rw [h]
  rfl

theorem pickIdx_self_append {ls : List Anat} {a : Anat} (h : pickIdx ls a = none) :
    pickIdx (ls ++ [a]) a = some ls.length := by
  rw [pickIdx_append_of_none h]
  have : pickIdx [a] a = some 0 := by
    rw [pickIdx, List.findIdx?_cons, compareAnatomies_refl]
    rfl
  rw [this]
  simp

theorem addVariant_found :
    ∀ (gs : List VGroup) (v : String × Anat) (k0 : Nat),
      pickIdx (gs.map (·.2)) v.2 = some k0 →
      ∀ k : Nat, (addVariant gs v)[k]? =
        if k = k0 then (gs[k]?).map (fun g => (g.1 ++ [v.1], g.2)) else gs[k]? := by
  intro gs
  induction gs with
  | nil => intro v k0 h; rw [pickIdx] at h; simp at h
  | cons g rest ih =>
      intro v k0 h k
      rw [pickIdx, List.map_cons, List.findIdx?_cons] at h
      rw [List.findIdx?_succ] at h
      by_cases hc0 : compareAnatomies v.2 g.2
      · rw [if_pos hc0] at h
        injection h with h
        subst h
        rw [addVariant, if_pos hc0]
        cases k with
        | zero => simp
        | succ k => simp
      · rw [if_neg hc0] at h
        rw [addVariant, if_neg hc0]
        obtain ⟨k0', hk0', hsucc⟩ := Option.map_eq_some'.mp h
        have hk0'' : pickIdx (rest.map (·.2)) v.2 = some k0' := hk0'
        subst hsucc
        cases k with
        | zero => simp
        | succ k =>
            have := ih v k0' hk0'' k
            simp only [List.getElem?_cons_succ]
            rw [this]
            by_cases hk : k = k0'
            · rw [if_pos hk, if_pos (by omega)]
            · rw [if_neg hk, if_neg (by omega)]

theorem addVariant_notfound :
    ∀ (gs : List VGroup) (v : String × Anat),
      pickIdx (gs.map (·.2)) v.2 = none →
      addVariant gs v = gs ++ [([v.1], v.2)] := by
  intro gs
  induction gs with
  | nil => intro v _; rfl
  | cons g rest ih =>
      intro v h
      rw [pickIdx, List.map_cons, List.findIdx?_cons] at h
      rw [List.findIdx?_succ] at h
      by_cases hc0 : compareAnatomies v.2 g.2
      · rw [if_pos hc0] at h; cases h
      · rw [if_neg hc0] at h
        have h' : pickIdx (rest.map (·.2)) v.2 = none := by
          rw [pickIdx]
          exact Option.map_eq_none'.mp h
        rw [addVariant, if_neg hc0, ih v h']
        rfl

theorem groupVariants_concat (vs : List (String × Anat)) (v : String × Anat) :
    groupVariants (vs ++ [v]) = addVariant (groupVariants vs) v := by
  rw [groupVariants, groupVariants, List.foldl_append]
  rfl

theorem leaders_concat (vs : List (String × Anat)) (v : String × Anat) :
    leaders (vs ++ [v]) =
      if (leaders vs).any (fun rep => compareAnatomies v.2 rep) then leaders vs
      else leaders vs ++ [v.2] := by
  rw [leaders, leaders, List.foldl_append]
  rfl

theorem any_eq_pickIdx_isSome (ls : List Anat) (a : Anat) :
    ls.any (fun rep => compareAnatomies a rep) = (pickIdx ls a).isSome := by
  rw [pickIdx, List.findIdx?_isSome]

theorem reps_of_spec {gs : List VGroup} {ls : List Anat} {f : Nat → List String}
    (h : ∀ k : Nat, gs[k]? = (ls[k]?).map (fun rep => (f k, rep))) :
    gs.map (·.2) = ls := by
  apply List.ext_getElem?
  intro i
  rw [List.getElem?_map, h i, Option.map_map]
  cases ls[i]? <;> rfl

theorem groupVariants_spec :
    ∀ vs : List (String × Anat),
      (∀ v ∈ vs, (pickIdx (leaders vs) v.2).isSome) ∧
      (∀ k : Nat, (groupVariants vs)[k]? =
        ((leaders vs)[k]?).map (fun rep =>
          ((vs.filter (fun w => decide (pickIdx (leaders vs) w.2 = some k))).map (·.1),
           rep))) := by
  intro vs
  induction vs using List.reverseRecOn with
  | nil => exact ⟨by simp, fun k => by simp [groupVariants, leaders]⟩
  | append_singleton vs v IH =>
      obtain ⟨IH1, IH2⟩ := IH
      have hreps : (groupVariants vs).map (·.2) = leaders vs := reps_of_spec IH2
      have hlen : (groupVariants vs).length = (leaders vs).length := by
        rw [← hreps, List.length_map]
      cases hpick : pickIdx (leaders vs) v.2 with
      | some k0 =>
          have hany : (leaders vs).any (fun rep => compareAnatomies v.2 rep) = true := by
            rw [any_eq_pickIdx_isSome, hpick]; rfl
          have hls' : leaders (vs ++ [v]) = leaders vs := by
            rw [leaders_concat, if_pos hany]
          have hgs' : groupVariants (vs ++ [v]) = addVariant (groupVariants vs) v :=
            groupVariants_concat vs v
          have hpick' : pickIdx ((groupVariants vs).map (·.2)) v.2 = some k0 := by
            rw [hreps]; exact hpick
          constructor
          · intro w hw
            rcases List.mem_append.mp hw with hw | hw
            · rw [hls']; exact IH1 w hw
            · rw [List.mem_singleton] at hw
              subst hw
              rw [hls', hpick]; rfl
          · intro k
            rw [hgs', hls', addVariant_found (groupVariants vs) v k0 hpick' k]
            by_cases hk : k = k0
            · subst hk
              rw [IH2 k, Option.map_map]
              rw [List.filter_append, List.map_append]
              have hfv : List.filter (fun w => decide (pickIdx (leaders vs) w.2 = some k)) [v]
                  = [v] := by
                simp [List.filter, hpick]
              rw [if_pos rfl, hfv]
              cases (leaders vs)[k]? <;> simp
            · rw [if_neg hk, IH2 k]
              rw [List.filter_append]
              have hfv : List.filter (fun w => decide (pickIdx (leaders vs) w.2 = some k)) [v]
                  = [] := by
                simp only [List.filter_cons, List.filter_nil, hpick, decide_eq_true_eq,
                  Option.some_inj]
                rw [if_neg (by omega)]
              rw [hfv, List.append_nil]
      | none =>
          have hany : (leaders vs).any (fun rep => compareAnatomies v.2 rep) = false := by
            rw [any_eq_pickIdx_isSome, hpick]; rfl
          have hls' : leaders (vs ++ [v]) = leaders vs ++ [v.2] := by
            rw [leaders_concat, hany]
            rfl
          have hpickgs : pickIdx ((groupVariants vs).map (·.2)) v.2 = none := by
            rw [hreps]; exact hpick
          have hgs' : groupVariants (vs ++ [v]) = groupVariants vs ++ [([v.1], v.2)] := by
            rw [groupVariants_concat, addVariant_notfound _ _ hpickgs]
          have hvnew : pickIdx (leaders vs ++ [v.2]) v.2 = some (leaders vs).length :=
            pickIdx_self_append hpick
          have hwstable : ∀ w ∈ vs, pickIdx (leaders (vs ++ [v])) w.2 =
              pickIdx (leaders vs) w.2 := by
            intro w hw
            obtain ⟨kw, hkw⟩ := Option.isSome_iff_exists.mp (IH1 w hw)
            rw [hls', pickIdx_append_of_some hkw, hkw]
          constructor
          · intro w hw
            rcases List.mem_append.mp hw with hw | hw
            · rw [hwstable w hw]; exact IH1 w hw
            · rw [List.mem_singleton] at hw
              subst hw
              rw [hls', hvnew]; rfl
          · intro k
            rw [hgs', hls']
            have hfilter_eq : ∀ k : Nat,
                List.filter (fun w => decide (pickIdx (leaders vs ++ [v.2]) w.2 = some k)) vs =
                List.filter (fun w => decide (pickIdx (leaders vs) w.2 = some k)) vs := by
              intro k
              apply List.filter_congr
              intro w hw
              rw [← hls', hwstable w hw]
            by_cases hk : k < (leaders vs).length
            · rw [List.getElem?_append_left (hlen ▸ hk), List.getElem?_append_left hk,
                IH2 k, List.filter_append, hfilter_eq k]
              have hfv : List.filter
                  (fun w => decide (pickIdx (leaders vs ++ [v.2]) w.2 = some k)) [v] = [] := by
                simp only [List.filter_cons, List.filter_nil, hvnew, decide_eq_true_eq,
                  Option.some_inj]
                rw [if_neg (by omega)]
              rw [hfv, List.append_nil]
            · by_cases hk2 : k = (leaders vs).length
              · subst hk2
                rw [← hlen, List.getElem?_concat_length, hlen, List.getElem?_concat_length]
                rw [List.filter_append, hfilter_eq _]
                have hfvs : List.filter
                    (fun w => decide (pickIdx (leaders vs) w.2 = some (leaders vs).length)) vs
                    = [] := by
                  rw [List.filter_eq_nil_iff]
                  intro w hw
                  obtain ⟨kw, hkw⟩ := Option.isSome_iff_exists.mp (IH1 w hw)
                  have := pickIdx_lt hkw
                  simp only [hkw, decide_eq_true_eq, Option.some_inj]
                  omega
                have hfv : List.filter
                    (fun w => decide (pickIdx (leaders vs ++ [v.2]) w.2 =
                      some (leaders vs).length)) [v] = [v] := by
                  simp [List.filter, hvnew]
                rw [hfvs, hfv]
                rfl
              · have hk3 : (leaders vs).length + 1 ≤ k := by omega
                rw [List.getElem?_eq_none, List.getElem?_eq_none]
                · rfl
                · simp only [List.length_append, List.length_cons, List.length_nil]
                  omega
                · simp only [List.length_append, List.length_cons, List.length_nil]
                  omega

/-- C4 counterexample: two object-shaped anatomies holding the same entries
under the same keys, differing only in key order, are judged unequal by
`compareAnatomies` (the values are compared positionally, in key order), so
key order in object-shaped inputs is not tolerated. -/
theorem c4_key_order_not_tolerated :
    compareAnatomies
      (.omap [("A", ⟨none, some "T", some "P", none⟩),
              ("B", ⟨none, some "U", some "Q", none⟩)])
      (.omap [("B", ⟨none, some "U", some "Q", none⟩),
              ("A", ⟨none, some "T", some "P", none⟩)]) = false := by decide

/-- C4 (amended): two anatomies are judged equal iff their comparison arrays
(arrays verbatim, objects by values in key order) have equal length and the
positional `(name, type, path)` triples match exactly; attributes other than
the triple (such as `parentPath`) are ignored; key order in object-shaped
inputs is significant rather than tolerated.  Each variant, in input order,
joins the first group (in creation order) whose representative anatomy
compares equal, else opens a new group: group representatives are the
first-seen distinct anatomies in input order, and group `k`'s members are
exactly the variants whose anatomy first matches representative `k`, in
input order. -/
theorem c4_anatomy_equality_and_grouping :
    (∀ a b : Anat, compareAnatomies a b = true ↔
       ((toCmpArr a).length = (toCmpArr b).length ∧
        ∀ i : Nat, ((toCmpArr a)[i]?).map tripleOf = ((toCmpArr b)[i]?).map tripleOf)) ∧
    (∀ a b : Anat, compareAnatomies (erasePP a) (erasePP b) = compareAnatomies a b) ∧
    (∀ vs : List (String × Anat), (groupVariants vs).map (·.2) = leaders vs) ∧
    (∀ (vs : List (String × Anat)) (k : Nat),
       (groupVariants vs)[k]? =
         ((leaders vs)[k]?).map (fun rep =>
           ((vs.filter (fun w => decide (pickIdx (leaders vs) w.2 = some k))).map (·.1),
            rep))) :=
  ⟨compareAnatomies_iff, compareAnatomies_erasePP,
   fun vs => reps_of_spec (groupVariants_spec vs).2,
   fun vs => (groupVariants_spec vs).2⟩

/-! ### Claim C2: canonical order of the legacy flat-mapping normalizer -/

theorem clLtB_irrefl : ∀ l : List Char, clLtB l l = false
  | [] => rfl
  | a :: as => by
      rw [clLtB]
      simp [clLtB_irrefl as]

theorem clLtB_trans : ∀ {a b c : List Char},
    clLtB a b = true → clLtB b c = true → clLtB a c = true
  | [], [], _, h1, _ => by cases h1
  | [], _ :: _, [], _, h2 => by cases h2
  | [], _ :: _, _ :: _, _, _ => rfl
  | _ :: _, [], _, h1, _ => by cases h1
  | _ :: _, _ :: _, [], _, h2 => by cases h2
  | a :: as, b :: bs, c :: cs, h1, h2 => by
      rw [clLtB] at h1 h2 ⊢
      by_cases hab : a = b
      · subst hab
        rw [if_pos rfl] at h1
        by_cases hbc : a = c
        · subst hbc
          rw [if_pos rfl] at h2 ⊢
          exact clLtB_trans h1 h2
        · rw [if_neg hbc] at h2 ⊢
          exact h2
      · rw [if_neg hab] at h1
        by_cases hbc : b = c
        · subst hbc
          rw [if_neg hab]
          exact h1
        · rw [if_neg hbc] at h2
          simp only [decide_eq_true_eq] at h1 h2
          have hac : a < c := lt_trans h1 h2
          rw [if_neg (by intro h; subst h; exact absurd h2 (not_lt_of_lt h1))]
          simp [hac]

theorem clLtB_eq_of_not : ∀ {a b : List Char},
    clLtB a b = false → clLtB b a = false → a = b
  | [], [], _, _ => rfl
  | [], _ :: _, h1, _ => by cases h1
  | _ :: _, [], _, h2 => by cases h2
  | a :: as, b :: bs, h1, h2 => by
      rw [clLtB] at h1 h2
      by_cases hab : a = b
      · subst hab
        rw [if_pos rfl] at h1 h2
        rw [clLtB_eq_of_not h1 h2]
      · rw [if_neg hab] at h1
        rw [if_neg (fun h => hab h.symm)] at h2
        simp only [decide_eq_false_iff_not, not_lt] at h1 h2
        exact absurd (le_antisymm h1 h2) (fun h => hab h.symm)

theorem strLtB_irrefl (s : String) : strLtB s s = false := clLtB_irrefl s.data

theorem strLtB_trans {a b c : String} (h1 : strLtB a b = true) (h2 : strLtB b c = true) :
    strLtB a c = true := clLtB_trans h1 h2

theorem strLtB_eq_of_not {a b : String} (h1 : strLtB a b = false)
    (h2 : strLtB b a = false) : a = b := by
  cases a with
  | mk da =>
      cases b with
      | mk db => exact congrArg String.mk (clLtB_eq_of_not h1 h2)

theorem segCmp_swap : ∀ as bs : List String, Legacy.segCmp as bs = -(Legacy.segCmp bs as)
  | [], [] => by simp [Legacy.segCmp]
  | [], b :: bs => by simp [Legacy.segCmp]
  | a :: as, [] => by simp [Legacy.segCmp]
  | a :: as, b :: bs => by
      rw [Legacy.segCmp, Legacy.segCmp]
      by_cases hab : a = b
      · subst hab
        rw [if_pos rfl, if_pos rfl]
        exact segCmp_swap as bs
      · rw [if_neg hab, if_neg (fun h => hab h.symm)]
        unfold strCmpI
        by_cases h1 : strLtB a b = true
        · have hba : strLtB b a = false := by
            cases hx : strLtB b a with
            | false => rfl
            | true => exact absurd (strLtB_trans h1 hx) (by simp [strLtB_irrefl])
          simp [h1, hba]
        · have h1' : strLtB a b = false := by
            cases hx : strLtB a b with
            | false => rfl
            | true => exact absurd hx h1
          have hba : strLtB b a = true := by
            cases hx : strLtB b a with
            | false => exact absurd (strLtB_eq_of_not h1' hx) hab
            | true => rfl
          simp [h1', hba]

theorem segCmp_eq_zero_iff : ∀ as bs : List String, Legacy.segCmp as bs = 0 ↔ as = bs
  | [], [] => by simp [Legacy.segCmp]
  | [], b :: bs => by simp [Legacy.segCmp]; omega
  | a :: as, [] => by simp [Legacy.segCmp]; omega
  | a :: as, b :: bs => by
      rw [Legacy.segCmp]
      by_cases hab : a = b
      · subst hab
        rw [if_pos rfl]
        rw [segCmp_eq_zero_iff as bs]
        simp
      · rw [if_neg hab]
        unfold strCmpI
        constructor
        · intro h
          by_cases h1 : strLtB a b = true
          · rw [if_pos h1] at h; cases h
          · rw [if_neg h1] at h
            by_cases h2 : strLtB b a = true
            · rw [if_pos h2] at h; cases h
            · exact absurd (strLtB_eq_of_not (Bool.eq_false_iff.mpr h1)
                (Bool.eq_false_iff.mpr h2)) hab
        · intro h
          injection h with h1 h2
          exact absurd h1 hab

theorem segCmp_neg_iff : ∀ as bs : List String,
    Legacy.segCmp as bs < 0 ↔ List.Lex (fun x y => strLtB x y = true) as bs
  | [], [] => by
      simp only [Legacy.segCmp]
      constructor
      · intro h; omega
      · intro h; cases h
  | [], b :: bs => by
      simp only [Legacy.segCmp]
      constructor
      · intro _; exact List.Lex.nil
      · intro _; simp; omega
  | a :: as, [] => by
      simp only [Legacy.segCmp]
      constructor
      · intro h; simp at h; omega
      · intro h; cases h
  | a :: as, b :: bs => by
      rw [Legacy.segCmp]
      by_cases hab : a = b
      · subst hab
        rw [if_pos rfl, segCmp_neg_iff as bs]
        constructor
        · intro h; exact List.Lex.cons h
        · intro h
          cases h with
          | cons h => exact h
          | rel h => exact absurd h (by simp [strLtB_irrefl])
      · rw [if_neg hab]
        unfold strCmpI
        constructor
        · intro h
          by_cases h1 : strLtB a b = true
          · exact List.Lex.rel h1
          · rw [if_neg h1] at h
            by_cases h2 : strLtB b a = true
            · rw [if_pos h2] at h; omega
            · exact absurd (strLtB_eq_of_not (Bool.eq_false_iff.mpr h1)
                (Bool.eq_false_iff.mpr h2)) hab
        · intro h
          cases h with
          | cons h' => exact absurd rfl hab
          | rel h' =>
              rw [if_pos h']
              omega

theorem segCmp_le_iff (as bs : List String) :
    Legacy.segCmp as bs ≤ 0 ↔ Legacy.specSegLe as bs := by
  rw [Legacy.specSegLe]
  constructor
  · intro h
    rcases lt_or_eq_of_le h with h | h
    · exact Or.inr ((segCmp_neg_iff as bs).mp h)
    · exact Or.inl ((segCmp_eq_zero_iff as bs).mp h)
  · rintro (h | h)
    · exact le_of_eq ((segCmp_eq_zero_iff as bs).mpr h)
    · exact le_of_lt ((segCmp_neg_iff as bs).mpr h)

theorem lexSeg_trans : ∀ {as bs cs : List String},
    List.Lex (fun x y => strLtB x y = true) as bs →
    List.Lex (fun x y => strLtB x y = true) bs cs →
    List.Lex (fun x y => strLtB x y = true) as cs := by
  intro as bs cs h1 h2
  induction h1 generalizing cs with
  | nil =>
      cases h2 with
      | cons _ => exact List.Lex.nil
      | rel _ => exact List.Lex.nil
  | @rel a l₁ b l₂ hab =>
      cases h2 with
      | cons _ => exact List.Lex.rel hab
      | rel hbc => exact List.Lex.rel (strLtB_trans hab hbc)
  | @cons a l₁ l₂ h1' ih =>
      cases h2 with
      | cons h2' => exact List.Lex.cons (ih h2')
      | rel hbc => exact List.Lex.rel hbc

theorem specSegLe_trans {as bs cs : List String} (h1 : Legacy.specSegLe as bs)
    (h2 : Legacy.specSegLe bs cs) : Legacy.specSegLe as cs := by
  rcases h1 with h1 | h1
  · subst h1; exact h2
  · rcases h2 with h2 | h2
    · subst h2; exact Or.inr h1
    · exact Or.inr (lexSeg_trans h1 h2)

theorem cmpNodes_le_iff (a b : Legacy.LRaw) :
    Legacy.cmpNodes a b ≤ 0 ↔ Legacy.specLeRaw a b := by
  rw [Legacy.cmpNodes, Legacy.specLeRaw]
  exact segCmp_le_iff _ _

theorem sortedNodes_pairwise (flat : List (String × Legacy.PRec)) :
    List.Pairwise Legacy.specLeRaw (Legacy.sortedNodes flat) := by
  have htrans : ∀ a b c : Legacy.LRaw,
      decide (Legacy.cmpNodes a b ≤ 0) = true →
      decide (Legacy.cmpNodes b c ≤ 0) = true →
      decide (Legacy.cmpNodes a c ≤ 0) = true := by
    intro a b c h1 h2
    simp only [decide_eq_true_eq] at h1 h2 ⊢
    exact (cmpNodes_le_iff a c).mpr
      (specSegLe_trans ((cmpNodes_le_iff a b).mp h1) ((cmpNodes_le_iff b c).mp h2))
  have htotal : ∀ a b : Legacy.LRaw,
      (decide (Legacy.cmpNodes a b ≤ 0) || decide (Legacy.cmpNodes b a ≤ 0)) = true := by
    intro a b
    have := segCmp_swap (splitSegs a.path) (splitSegs b.path)
    rw [Bool.or_eq_true]
    simp only [decide_eq_true_eq]
    rw [Legacy.cmpNodes, Legacy.cmpNodes]
    omega
  have hp := List.sorted_mergeSort htrans htotal (Legacy.nodesOf flat)
  refine hp.imp ?_
  intro a b h
  simp only [decide_eq_true_eq] at h
  exact (cmpNodes_le_iff a b).mp h

theorem LNode.pre_eq (n t : String) (d : Nat) (p : String) (cs : List Legacy.LNode) :
    (Legacy.LNode.mk n t d p cs).pre =
      Legacy.LNode.mk n t d p cs :: (cs.map Legacy.LNode.pre).flatten := by
  rw [Legacy.LNode.pre, List.attach_map_val]

theorem buildNodeLF_path (ns : List Legacy.LRaw) (fuel i : Nat) :
    (Legacy.buildNodeLF ns fuel i).path = (Legacy.rawAt ns i).path := by
  cases fuel <;> rfl

theorem buildNodeLF_children (ns : List Legacy.LRaw) (fuel i : Nat) :
    (Legacy.buildNodeLF ns (fuel + 1) i).children =
      (Legacy.childIdxsL ns i).map (Legacy.buildNodeLF ns fuel) := rfl

theorem rawAt_eq_getElem (ns : List Legacy.LRaw) (j : Nat) (hj : j < ns.length) :
    Legacy.rawAt ns j = ns[j] := by
  rw [Legacy.rawAt, List.get?_eq_getElem?, List.getElem?_eq_getElem hj]
  rfl

theorem pairwise_specLe_map_build (ns : List Legacy.LRaw)
    (hsort : List.Pairwise Legacy.specLeRaw ns) (idxs : List Nat) (fuel : Nat)
    (hasc : List.Pairwise (· < ·) idxs) (hbd : ∀ j ∈ idxs, j < ns.length) :
    List.Pairwise
      (fun c d => Legacy.specSegLe (splitSegs (Legacy.LNode.path c))
        (splitSegs (Legacy.LNode.path d)))
      (idxs.map (Legacy.buildNodeLF ns fuel)) := by
  have hS : List.Pairwise
      (fun j1 j2 => Legacy.specLeRaw (Legacy.rawAt ns j1) (Legacy.rawAt ns j2)) idxs := by
    refine hasc.imp_of_mem ?_
    intro j1 j2 h1 h2 hlt
    have hb1 := hbd j1 h1
    have hb2 := hbd j2 h2
    rw [rawAt_eq_getElem ns j1 hb1, rawAt_eq_getElem ns j2 hb2]
    exact List.pairwise_iff_getElem.mp hsort j1 j2 hb1 hb2 hlt
  refine hS.map _ ?_
  intro j1 j2 h
  rw [Legacy.specLeRaw] at h
  rw [buildNodeLF_path, buildNodeLF_path]
  exact h

theorem childIdxsL_asc (ns : List Legacy.LRaw) (i : Nat) :
    List.Pairwise (· < ·) (Legacy.childIdxsL ns i) :=
  List.Pairwise.sublist (List.filter_sublist _) (List.pairwise_lt_range ns.length)

theorem childIdxsL_bd (ns : List Legacy.LRaw) (i : Nat) :
    ∀ j ∈ Legacy.childIdxsL ns i, j < ns.length := by
  intro j hj
  rw [Legacy.childIdxsL, List.mem_filter] at hj
  exact List.mem_range.mp hj.1

theorem rootIdxsL_asc (ns : List Legacy.LRaw) :
    List.Pairwise (· < ·) (Legacy.rootIdxsL ns) :=
  List.Pairwise.sublist (List.filter_sublist _) (List.pairwise_lt_range ns.length)

theorem rootIdxsL_bd (ns : List Legacy.LRaw) :
    ∀ j ∈ Legacy.rootIdxsL ns, j < ns.length := by
  intro j hj
  rw [Legacy.rootIdxsL, List.mem_filter] at hj
  exact List.mem_range.mp hj.1

theorem mem_pre_buildL (ns : List Legacy.LRaw) :
    ∀ (fuel i : Nat), i < ns.length → ∀ t ∈ (Legacy.buildNodeLF ns fuel i).pre,
      ∃ f' i', i' < ns.length ∧ t = Legacy.buildNodeLF ns f' i' := by
  intro fuel
  induction fuel with
  | zero =>
      intro i hi t ht
      rw [show Legacy.buildNodeLF ns 0 i =
        Legacy.LNode.mk (Legacy.rawAt ns i).name (Legacy.rawAt ns i).type
          (Legacy.rawAt ns i).depth (Legacy.rawAt ns i).path [] from rfl,
        LNode.pre_eq] at ht
      simp only [List.map_nil, List.flatten_nil, List.mem_singleton] at ht
      exact ⟨0, i, hi, ht⟩
  | succ fuel ih =>
      intro i hi t ht
      rw [show Legacy.buildNodeLF ns (fuel + 1) i =
        Legacy.LNode.mk (Legacy.rawAt ns i).name (Legacy.rawAt ns i).type
          (Legacy.rawAt ns i).depth (Legacy.rawAt ns i).path
          ((Legacy.childIdxsL ns i).map (Legacy.buildNodeLF ns fuel)) from rfl,
        LNode.pre_eq] at ht
      rcases List.mem_cons.mp ht with ht | ht
      · exact ⟨fuel + 1, i, hi, ht⟩
      · rw [List.mem_flatten] at ht
        obtain ⟨l, hl, htl⟩ := ht
        rw [List.mem_map] at hl
        obtain ⟨c, hc2, hcl⟩ := hl
        rw [List.mem_map] at hc2
        obtain ⟨j, hj, hcj⟩ := hc2
        subst hcl
        subst hcj
        exact ih j (childIdxsL_bd ns i j hj) t htl

/-- C2: the legacy flat-mapping normalizer (part_000 / converters.ts) sorts
the materialized records by lexicographic comparison of path segments with
ties (segment-prefix pairs) broken by the shorter path first — the
comparator realizes exactly the lexicographic order on segment lists, in
which a proper prefix precedes its extensions — and consequently, in the
built tree, sibling order (every node's children, and the root list)
respects that path-segment lexicographic order. -/
theorem c2_flat_mapping_canonical_order :
    (∀ a b : Legacy.LRaw, Legacy.cmpNodes a b ≤ 0 ↔ Legacy.specLeRaw a b) ∧
    (∀ flat : List (String × Legacy.PRec),
       List.Pairwise Legacy.specLeRaw (Legacy.sortedNodes flat)) ∧
    (∀ (flat : List (String × Legacy.PRec)) (t : Legacy.LNode),
       t ∈ Legacy.allLNodes (Legacy.buildForestL flat) →
       List.Pairwise
         (fun c d => Legacy.specSegLe (splitSegs (Legacy.LNode.path c))
           (splitSegs (Legacy.LNode.path d)))
         (Legacy.LNode.children t)) ∧
    (∀ flat : List (String × Legacy.PRec),
       List.Pairwise
         (fun c d => Legacy.specSegLe (splitSegs (Legacy.LNode.path c))
           (splitSegs (Legacy.LNode.path d)))
         (Legacy.buildForestL flat)) := by
  refine ⟨cmpNodes_le_iff, sortedNodes_pairwise, ?_, ?_⟩
  · intro flat t ht
    rw [Legacy.allLNodes, List.mem_flatten] at ht
    obtain ⟨l, hl, htl⟩ := ht
    rw [List.mem_map] at hl
    obtain ⟨r, hr, hrl⟩ := hl
    rw [Legacy.buildForestL, List.mem_map] at hr
    obtain ⟨i, hi, hri⟩ := hr
    subst hrl
    subst hri
    obtain ⟨f', i', hi', ht'⟩ :=
      mem_pre_buildL (Legacy.sortedNodes flat) _ i
        (rootIdxsL_bd (Legacy.sortedNodes flat) i hi) t htl
    subst ht'
    cases f' with
    | zero => simp [Legacy.buildNodeLF, Legacy.LNode.children]
    | succ f'' =>
        rw [buildNodeLF_children]
        exact pairwise_specLe_map_build (Legacy.sortedNodes flat)
          (sortedNodes_pairwise flat) _ f'' (childIdxsL_asc _ i')
          (childIdxsL_bd _ i')
  · intro flat
    rw [Legacy.buildForestL]
    exact pairwise_specLe_map_build (Legacy.sortedNodes flat)
      (sortedNodes_pairwise flat) _ _ (rootIdxsL_asc _) (rootIdxsL_bd _)


unseal List.merge List.mergeSort Legacy.LNode.pre in
/-- Witness for C2 at a concrete flat mapping: the built root's children are
in path-segment lexicographic order. -/
theorem c2_flat_mapping_canonical_order_witness :
    List.Pairwise
      (fun c d => Legacy.specSegLe (splitSegs (Legacy.LNode.path c))
        (splitSegs (Legacy.LNode.path d)))
      (Legacy.LNode.children (Legacy.LNode.mk "Frame" "FRAME" 0 "Frame"
        [Legacy.LNode.mk "A" "TEXT" 1 "Frame > A" [],
         Legacy.LNode.mk "B" "TEXT" 1 "Frame > B" []])) :=
  c2_flat_mapping_canonical_order.2.2.1
    [("Frame", ⟨some "FRAME", some "Frame"⟩), ("B", ⟨some "TEXT", some "Frame > B"⟩),
     ("A", ⟨some "TEXT", some "Frame > A"⟩)]
    _ (by decide)

/-! ### Shared index-level theory of the part_002 tree builder (claims C3, C1) -/

theorem get?_some_lt {recs : List ERec} {i : Nat} {r : ERec}
    (h : recs.get? i = some r) : i < recs.length := by
  by_contra hge
  rw [List.get?_eq_none.mpr (Nat.le_of_not_lt hge)] at h
  cases h

theorem parentIdx_of_get? {recs : List ERec} {i : Nat} {r : ERec}
    (hg : recs.get? i = some r) :
    parentIdx recs i =
      if jsTruthyS r.parentPath then
        ((List.range (i + 1)).filter
          (fun j => decide (pathKeyAt recs j = r.parentPath))).getLast?
      else none := by
  rw [parentIdx, hg]

theorem parentIdx_le {recs : List ERec} {i j : Nat} (h : parentIdx recs i = some j) :
    j ≤ i := by
  cases hg : recs.get? i with
  | none => rw [parentIdx, hg] at h; cases h
  | some r =>
      rw [parentIdx_of_get? hg] at h
      by_cases ht : jsTruthyS r.parentPath
      · rw [if_pos ht] at h
        have hmem := List.mem_of_getLast?_eq_some h
        rw [List.mem_filter] at hmem
        have := List.mem_range.mp hmem.1
        omega
      · rw [if_neg ht] at h; cases h

theorem parentIdx_lt_length {recs : List ERec} {i j : Nat}
    (h : parentIdx recs i = some j) : i < recs.length := by
  cases hg : recs.get? i with
  | none => rw [parentIdx, hg] at h; cases h
  | some r => exact get?_some_lt hg

theorem parentIdx_none_of_ge {recs : List ERec} {i : Nat} (h : recs.length ≤ i) :
    parentIdx recs i = none := by
  rw [parentIdx, List.get?_eq_none.mpr h]

theorem mem_childIdxs {recs : List ERec} {i j : Nat} :
    j ∈ childIdxs recs i ↔ (j < recs.length ∧ i < j ∧ parentIdx recs j = some i) := by
  rw [childIdxs, List.mem_filter, List.mem_range]
  simp

theorem mem_rootIdxs {recs : List ERec} {i : Nat} :
    i ∈ rootIdxs recs ↔ (i < recs.length ∧ parentIdx recs i = none) := by
  rw [rootIdxs, List.mem_filter, List.mem_range]
  simp

theorem childIdxs_asc (recs : List ERec) (i : Nat) :
    List.Pairwise (· < ·) (childIdxs recs i) :=
  List.Pairwise.sublist (List.filter_sublist _) (List.pairwise_lt_range recs.length)

theorem rootIdxs_asc (recs : List ERec) :
    List.Pairwise (· < ·) (rootIdxs recs) :=
  List.Pairwise.sublist (List.filter_sublist _) (List.pairwise_lt_range recs.length)

theorem childIdxs_nil_of_ge {recs : List ERec} {i : Nat}
    (h : recs.length ≤ i + 1) : childIdxs recs i = [] := by
  rw [List.eq_nil_iff_forall_not_mem]
  intro j hj
  rw [mem_childIdxs] at hj
  omega

theorem subIdxsF_stable (recs : List ERec) :
    ∀ f₁ f₂ i, recs.length ≤ i + f₁ + 1 → recs.length ≤ i + f₂ + 1 →
      subIdxsF recs f₁ i = subIdxsF recs f₂ i := by
  intro f₁
  induction f₁ with
  | zero =>
      intro f₂ i h1 h2
      cases f₂ with
      | zero => rfl
      | succ g =>
          rw [subIdxsF, subIdxsF, childIdxs_nil_of_ge (by omega)]
          rfl
  | succ f ih =>
      intro f₂ i h1 h2
      cases f₂ with
      | zero =>
          rw [subIdxsF, subIdxsF, childIdxs_nil_of_ge (by omega)]
          rfl
      | succ g =>
          rw [subIdxsF, subIdxsF]
          congr 1
          congr 1
          apply List.map_congr_left
          intro j hj
          rw [mem_childIdxs] at hj
          exact ih g j (by omega) (by omega)

theorem subIdxs_unfold (recs : List ERec) (i : Nat) :
    subIdxs recs i = i :: ((childIdxs recs i).map (subIdxs recs)).flatten := by
  rw [subIdxs]
  cases hn : recs.length with
  | zero =>
      rw [subIdxsF]
      have : childIdxs recs i = [] := by
        rw [List.eq_nil_iff_forall_not_mem]
        intro j hj
        rw [mem_childIdxs] at hj
        omega
      rw [this]
      rfl
  | succ m =>
      rw [subIdxsF]
      congr 1
      congr 1
      apply List.map_congr_left
      intro j hj
      rw [mem_childIdxs] at hj
      rw [subIdxs]
      exact subIdxsF_stable recs m recs.length j (by omega) (by omega)

theorem self_mem_subIdxs (recs : List ERec) (i : Nat) : i ∈ subIdxs recs i := by
  rw [subIdxs_unfold]
  exact List.mem_cons_self i _

theorem mem_subIdxsF_ge (recs : List ERec) :
    ∀ f i x, x ∈ subIdxsF recs f i → i ≤ x := by
  intro f
  induction f with
  | zero =>
      intro i x hx
      rw [subIdxsF, List.mem_singleton] at hx
      omega
  | succ f ih =>
      intro i x hx
      rw [subIdxsF] at hx
      rcases List.mem_cons.mp hx with hx | hx
      · omega
      · rw [List.mem_flatten] at hx
        obtain ⟨l, hl, hxl⟩ := hx
        rw [List.mem_map] at hl
        obtain ⟨j, hj, hjl⟩ := hl
        subst hjl
        rw [mem_childIdxs] at hj
        have := ih j x hxl
        omega

theorem mem_subIdxs_ge {recs : List ERec} {i x : Nat} (h : x ∈ subIdxs recs i) :
    i ≤ x := mem_subIdxsF_ge recs _ i x h

theorem mem_subIdxsF_bound (recs : List ERec) :
    ∀ f i x, x ∈ subIdxsF recs f i → x = i ∨ x < recs.length := by
  intro f
  induction f with
  | zero =>
      intro i x hx
      rw [subIdxsF, List.mem_singleton] at hx
      exact Or.inl hx
  | succ f ih =>
      intro i x hx
      rw [subIdxsF] at hx
      rcases List.mem_cons.mp hx with hx | hx
      · exact Or.inl hx
      · rw [List.mem_flatten] at hx
        obtain ⟨l, hl, hxl⟩ := hx
        rw [List.mem_map] at hl
        obtain ⟨j, hj, hjl⟩ := hl
        subst hjl
        rw [mem_childIdxs] at hj
        rcases ih j x hxl with h | h
        · omega
        · exact Or.inr h

theorem mem_subIdxs_lt {recs : List ERec} {i x : Nat} (hi : i < recs.length)
    (h : x ∈ subIdxs recs i) : x < recs.length := by
  rcases mem_subIdxsF_bound recs _ i x h with h | h
  · omega
  · exact h

theorem mem_subIdxs_of_child {recs : List ERec} {i j : Nat}
    (h : j ∈ childIdxs recs i) : j ∈ subIdxs recs i := by
  rw [subIdxs_unfold]
  refine List.mem_cons_of_mem i ?_
  rw [List.mem_flatten]
  exact ⟨subIdxs recs j, List.mem_map_of_mem _ h, self_mem_subIdxs recs j⟩

theorem ancChainF_stable (recs : List ERec) :
    ∀ f₁ f₂ i, i ≤ f₁ → i ≤ f₂ → ancChainF recs f₁ i = ancChainF recs f₂ i := by
  intro f₁
  induction f₁ with
  | zero =>
      intro f₂ i h1 h2
      interval_cases i
      cases f₂ with
      | zero => rfl
      | succ g =>
          rw [ancChainF, ancChainF]
          cases hp : parentIdx recs 0 with
          | none => rfl
          | some j => simp
  | succ f ih =>
      intro f₂ i h1 h2
      cases f₂ with
      | zero =>
          interval_cases i
          rw [ancChainF, ancChainF]
          cases hp : parentIdx recs 0 with
          | none => rfl
          | some j => simp
      | succ g =>
          rw [ancChainF, ancChainF]
          congr 1
          cases hp : parentIdx recs i with
          | none => rfl
          | some j =>
              simp only
              by_cases hj : j < i
              · rw [if_pos hj, if_pos hj]
                exact ih g j (by omega) (by omega)
              · rw [if_neg hj, if_neg hj]

theorem ancChain_unfold (recs : List ERec) (i : Nat) :
    ancChain recs i =
      i :: (match parentIdx recs i with
            | some j => if j < i then ancChain recs j else []
            | none => []) := by
  rw [ancChain]
  cases i with
  | zero =>
      rw [ancChainF]
      cases hp : parentIdx recs 0 with
      | none => rfl
      | some j => simp
  | succ m =>
      rw [ancChainF]
      congr 1
      cases hp : parentIdx recs (m + 1) with
      | none => rfl
      | some j =>
          simp only
          by_cases hj : j < m + 1
          · rw [if_pos hj, if_pos hj, ancChain]
            exact ancChainF_stable recs m j j (by omega) (le_refl j)
          · rw [if_neg hj, if_neg hj]

theorem self_mem_ancChain (recs : List ERec) (i : Nat) : i ∈ ancChain recs i := by
  rw [ancChain_unfold]
  exact List.mem_cons_self i _

theorem mem_ancChain_le {recs : List ERec} :
    ∀ {i j : Nat}, j ∈ ancChain recs i → j ≤ i := by
  intro i
  induction i using Nat.strong_induction_on with
  | _ i ih =>
      intro j hj
      rw [ancChain_unfold] at hj
      rcases List.mem_cons.mp hj with hj | hj
      · omega
      · cases hp : parentIdx recs i with
        | none => rw [hp] at hj; cases hj
        | some k =>
            rw [hp] at hj
            change j ∈ (if k < i then ancChain recs k else []) at hj
            by_cases hk : k < i
            · rw [if_pos hk] at hj
              have := ih k hk hj
              omega
            · rw [if_neg hk] at hj; cases hj

theorem ancChain_linear {recs : List ERec} :
    ∀ {i a b : Nat}, a ∈ ancChain recs i → b ∈ ancChain recs i →
      a ∈ ancChain recs b ∨ b ∈ ancChain recs a := by
  intro i
  induction i using Nat.strong_induction_on with
  | _ i ih =>
      intro a b ha hb
      rw [ancChain_unfold] at ha hb
      rcases List.mem_cons.mp ha with ha | ha
      · subst ha
        rcases List.mem_cons.mp hb with hb | hb
        · subst hb
          exact Or.inl (self_mem_ancChain recs b)
        · right
          rw [ancChain_unfold]
          exact List.mem_cons_of_mem _ hb
      · rcases List.mem_cons.mp hb with hb | hb
        · subst hb
          left
          rw [ancChain_unfold]
          exact List.mem_cons_of_mem _ ha
        · cases hp : parentIdx recs i with
          | none => rw [hp] at ha; cases ha
          | some k =>
              rw [hp] at ha hb
              change a ∈ (if k < i then ancChain recs k else []) at ha
              change b ∈ (if k < i then ancChain recs k else []) at hb
              by_cases hk : k < i
              · rw [if_pos hk] at ha hb
                exact ih k hk ha hb
              · rw [if_neg hk] at ha; cases ha

theorem ancChain_extend {recs : List ERec} :
    ∀ {x c j : Nat}, c ∈ ancChain recs x → parentIdx recs c = some j → j < c →
      j ∈ ancChain recs x := by
  intro x
  induction x using Nat.strong_induction_on with
  | _ x ih =>
      intro c j hc hp hj
      rw [ancChain_unfold] at hc ⊢
      rcases List.mem_cons.mp hc with hc | hc
      · subst hc
        rw [hp]
        show j ∈ c :: (if j < c then ancChain recs j else [])
        rw [if_pos hj]
        exact List.mem_cons_of_mem _ (self_mem_ancChain recs j)
      · cases hpx : parentIdx recs x with
        | none => rw [hpx] at hc; cases hc
        | some k =>
            rw [hpx] at hc
            change c ∈ (if k < x then ancChain recs k else []) at hc
            by_cases hk : k < x
            · rw [if_pos hk] at hc
              show j ∈ x :: (if k < x then ancChain recs k else [])
              rw [if_pos hk]
              exact List.mem_cons_of_mem _ (ih k hk hc hp hj)
            · rw [if_neg hk] at hc; cases hc

theorem subIdxsF_mem_chain (recs : List ERec) :
    ∀ f j x, x ∈ subIdxsF recs f j → j ∈ ancChain recs x := by
  intro f
  induction f with
  | zero =>
      intro j x hx
      rw [subIdxsF, List.mem_singleton] at hx
      subst hx
      exact self_mem_ancChain recs _
  | succ f ih =>
      intro j x hx
      rw [subIdxsF] at hx
      rcases List.mem_cons.mp hx with hx | hx
      · subst hx; exact self_mem_ancChain recs _
      · rw [List.mem_flatten] at hx
        obtain ⟨l, hl, hxl⟩ := hx
        rw [List.mem_map] at hl
        obtain ⟨c, hc, hcl⟩ := hl
        subst hcl
        rw [mem_childIdxs] at hc
        exact ancChain_extend (ih c x hxl) hc.2.2 hc.2.1

theorem subIdxs_mem_chain {recs : List ERec} {j x : Nat}
    (h : x ∈ subIdxs recs j) : j ∈ ancChain recs x :=
  subIdxsF_mem_chain recs _ j x h

theorem subIdxsF_trans (recs : List ERec) :
    ∀ f x y z, recs.length ≤ x + f + 1 → y ∈ subIdxsF recs f x →
      z ∈ subIdxs recs y → z ∈ subIdxsF recs f x := by
  intro f
  induction f with
  | zero =>
      intro x y z hf hy hz
      rw [subIdxsF, List.mem_singleton] at hy
      subst hy
      rw [subIdxs_unfold, childIdxs_nil_of_ge (by omega)] at hz
      simp only [List.map_nil, List.flatten_nil] at hz
      rw [subIdxsF]
      exact hz
  | succ f ih =>
      intro x y z hf hy hz
      rw [subIdxsF] at hy ⊢
      rcases List.mem_cons.mp hy with hy | hy
      · subst hy
        rw [subIdxs] at hz
        rw [subIdxsF_stable recs recs.length (f + 1) _ (by omega) (by omega)] at hz
        rw [subIdxsF] at hz
        exact hz
      · rw [List.mem_flatten] at hy
        obtain ⟨l, hl, hyl⟩ := hy
        rw [List.mem_map] at hl
        obtain ⟨c, hc, hcl⟩ := hl
        subst hcl
        have hcc := mem_childIdxs.mp hc
        refine List.mem_cons_of_mem x ?_
        rw [List.mem_flatten]
        refine ⟨subIdxsF recs f c, List.mem_map_of_mem _ hc, ?_⟩
        exact ih c y z (by omega) hyl hz

theorem subIdxs_trans {recs : List ERec} {x y z : Nat}
    (hy : y ∈ subIdxs recs x) (hz : z ∈ subIdxs recs y) : z ∈ subIdxs recs x :=
  subIdxsF_trans recs recs.length x y z (by omega) hy hz

theorem chain_mem_subIdxs {recs : List ERec} :
    ∀ {i j : Nat}, j ∈ ancChain recs i → i ∈ subIdxs recs j := by
  intro i
  induction i using Nat.strong_induction_on with
  | _ i ih =>
      intro j hj
      rw [ancChain_unfold] at hj
      rcases List.mem_cons.mp hj with hj | hj
      · subst hj; exact self_mem_subIdxs recs j
      · cases hp : parentIdx recs i with
        | none => rw [hp] at hj; cases hj
        | some k =>
            rw [hp] at hj
            change j ∈ (if k < i then ancChain recs k else []) at hj
            by_cases hk : k < i
            · rw [if_pos hk] at hj
              have hik : i ∈ childIdxs recs k :=
                mem_childIdxs.mpr ⟨parentIdx_lt_length hp, hk, hp⟩
              exact subIdxs_trans (ih k hk hj) (mem_subIdxs_of_child hik)
            · rw [if_neg hk] at hj; cases hj

theorem subIdxs_sibling_disjoint {recs : List ERec} {i c₁ c₂ : Nat}
    (h₁ : parentIdx recs c₁ = some i) (hl₁ : i < c₁)
    (h₂ : parentIdx recs c₂ = some i) (hl₂ : i < c₂) (hne : c₁ ≠ c₂) :
    List.Disjoint (subIdxs recs c₁) (subIdxs recs c₂) := by
  intro x hx₁ hx₂
  have ha₁ := subIdxs_mem_chain hx₁
  have ha₂ := subIdxs_mem_chain hx₂
  rcases ancChain_linear ha₁ ha₂ with h | h
  · rw [ancChain_unfold, h₂] at h
    change c₁ ∈ c₂ :: (if i < c₂ then ancChain recs i else []) at h
    rw [if_pos hl₂] at h
    rcases List.mem_cons.mp h with h | h
    · exact hne h
    · have := mem_ancChain_le h
      omega
  · rw [ancChain_unfold, h₁] at h
    change c₂ ∈ c₁ :: (if i < c₁ then ancChain recs i else []) at h
    rw [if_pos hl₁] at h
    rcases List.mem_cons.mp h with h | h
    · exact hne h.symm
    · have := mem_ancChain_le h
      omega

theorem subIdxs_root_disjoint {recs : List ERec} {r₁ r₂ : Nat}
    (h₁ : parentIdx recs r₁ = none) (h₂ : parentIdx recs r₂ = none)
    (hne : r₁ ≠ r₂) :
    List.Disjoint (subIdxs recs r₁) (subIdxs recs r₂) := by
  intro x hx₁ hx₂
  have ha₁ := subIdxs_mem_chain hx₁
  have ha₂ := subIdxs_mem_chain hx₂
  rcases ancChain_linear ha₁ ha₂ with h | h
  · rw [ancChain_unfold, h₂] at h
    rcases List.mem_cons.mp h with h | h
    · exact hne h
    · cases h
  · rw [ancChain_unfold, h₁] at h
    rcases List.mem_cons.mp h with h | h
    · exact hne h.symm
    · cases h

theorem subIdxsF_nodup (recs : List ERec) :
    ∀ f i, recs.length ≤ i + f + 1 → (subIdxsF recs f i).Nodup := by
  intro f
  induction f with
  | zero =>
      intro i hf
      rw [subIdxsF]
      exact List.nodup_singleton i
  | succ f ih =>
      intro i hf
      rw [subIdxsF]
      refine List.Nodup.cons ?_ ?_
      · intro hmem
        rw [List.mem_flatten] at hmem
        obtain ⟨l, hl, hil⟩ := hmem
        rw [List.mem_map] at hl
        obtain ⟨c, hc, hcl⟩ := hl
        subst hcl
        have h1 := mem_subIdxsF_ge recs f c i hil
        have h2 := (mem_childIdxs.mp hc).2.1
        omega
      · rw [List.nodup_flatten]
        constructor
        · intro l hl
          rw [List.mem_map] at hl
          obtain ⟨c, hc, hcl⟩ := hl
          subst hcl
          have h2 := (mem_childIdxs.mp hc).2.1
          exact ih c (by omega)
        · rw [List.pairwise_map]
          refine List.Pairwise.imp_of_mem ?_ (childIdxs_asc recs i)
          intro a b ha hb hab
          have hca := mem_childIdxs.mp ha
          have hcb := mem_childIdxs.mp hb
          rw [subIdxsF_stable recs f recs.length a (by omega) (by omega),
              subIdxsF_stable recs f recs.length b (by omega) (by omega)]
          exact subIdxs_sibling_disjoint hca.2.2 hca.2.1 hcb.2.2 hcb.2.1 (by omega)

theorem subIdxs_nodup (recs : List ERec) (i : Nat) : (subIdxs recs i).Nodup :=
  subIdxsF_nodup recs recs.length i (by omega)

theorem dfsIdxs_nodup (recs : List ERec) : (dfsIdxs recs).Nodup := by
  rw [dfsIdxs, List.nodup_flatten]
  constructor
  · intro l hl
    rw [List.mem_map] at hl
    obtain ⟨r, _, hrl⟩ := hl
    subst hrl
    exact subIdxs_nodup recs r
  · rw [List.pairwise_map]
    refine List.Pairwise.imp_of_mem ?_ (rootIdxs_asc recs)
    intro a b ha hb hab
    exact subIdxs_root_disjoint (mem_rootIdxs.mp ha).2 (mem_rootIdxs.mp hb).2
      (by omega)

theorem mem_dfsIdxs_of_no_self {recs : List ERec}
    (hns : ∀ k, k < recs.length → parentIdx recs k ≠ some k) :
    ∀ x, x < recs.length → x ∈ dfsIdxs recs := by
  intro x
  induction x using Nat.strong_induction_on with
  | _ x ih =>
      intro hx
      cases hp : parentIdx recs x with
      | none =>
          rw [dfsIdxs, List.mem_flatten]
          refine ⟨subIdxs recs x, List.mem_map_of_mem _ (mem_rootIdxs.mpr ⟨hx, hp⟩),
            self_mem_subIdxs recs x⟩
      | some j =>
          have hj_le := parentIdx_le hp
          have hj_ne := hns x hx
          have hj : j < x := by
            rcases Nat.lt_or_ge j x with h | h
            · exact h
            · exfalso; exact hj_ne (by rw [hp]; congr 1; omega)
          have hjd := ih j hj (by omega)
          rw [dfsIdxs, List.mem_flatten] at hjd ⊢
          obtain ⟨l, hl, hjl⟩ := hjd
          rw [List.mem_map] at hl
          obtain ⟨r, hr, hrl⟩ := hl
          subst hrl
          refine ⟨subIdxs recs r, List.mem_map_of_mem _ hr, ?_⟩
          have hxc : x ∈ childIdxs recs j := mem_childIdxs.mpr ⟨hx, hj, hp⟩
          exact subIdxs_trans hjl (mem_subIdxs_of_child hxc)

theorem count_dfsIdxs_of_no_self {recs : List ERec}
    (hns : ∀ k, k < recs.length → parentIdx recs k ≠ some k)
    {x : Nat} (hx : x < recs.length) : (dfsIdxs recs).count x = 1 :=
  List.count_eq_one_of_mem (dfsIdxs_nodup recs) (mem_dfsIdxs_of_no_self hns x hx)

/-- C3 (amended): in `buildTreeFromAnatomy` of part_002, a record whose
`parentPath` is truthy but matches no map key written up to and including
itself (the builder registers the record's own path before the lookup) is
appended to the root list; and provided no record resolves itself as its own
parent, every record index appears exactly once in the depth-first order of
the built forest. -/
theorem c3_orphan_appended_as_root (recs : List ERec) :
    (∀ i r, recs.get? i = some r → jsTruthyS r.parentPath = true →
        (∀ j, j ≤ i → pathKeyAt recs j ≠ r.parentPath) → i ∈ rootIdxs recs) ∧
    ((∀ k, k < recs.length → parentIdx recs k ≠ some k) →
        ∀ x, x < recs.length → (dfsIdxs recs).count x = 1) := by
  constructor
  · intro i r hg ht hno
    refine mem_rootIdxs.mpr ⟨get?_some_lt hg, ?_⟩
    rw [parentIdx_of_get? hg, if_pos ht]
    have hnil : (List.range (i + 1)).filter
        (fun j => decide (pathKeyAt recs j = r.parentPath)) = [] := by
      rw [List.filter_eq_nil_iff]
      intro j hj
      rw [List.mem_range] at hj
      simp only [decide_eq_true_eq]
      exact hno j (by omega)
    rw [hnil]
    rfl
  · intro hns x hx
    exact count_dfsIdxs_of_no_self hns hx

/-- Witness for C3: record B at index 1 has truthy `parentPath` "Z" matching
no path key, lands on the root list, and appears exactly once in the
depth-first order. -/
theorem c3_orphan_appended_as_root_witness :
    1 ∈ rootIdxs [ERec.mk (some "A") (some "T") (some "A") none,
                  ERec.mk (some "B") (some "U") (some "B") (some "Z")] ∧
    (dfsIdxs [ERec.mk (some "A") (some "T") (some "A") none,
              ERec.mk (some "B") (some "U") (some "B") (some "Z")]).count 1 = 1 := by
  refine ⟨(c3_orphan_appended_as_root _).1 1
      (ERec.mk (some "B") (some "U") (some "B") (some "Z")) rfl (by decide) ?_,
    (c3_orphan_appended_as_root _).2 ?_ 1 (by decide)⟩
  · intro j hj
    interval_cases j <;> decide
  · intro k hk
    simp only [List.length_cons, List.length_nil] at hk
    interval_cases k <;> decide

/-- Counterexample to C3 as stated: the sole record's `parentPath` "A" is
truthy and matches no record processed before it (there are none), yet the
record is not appended to the root list — the builder resolves the record
itself as its parent and the node becomes unreachable, so it appears zero
times in the output forest, which is empty. -/
theorem c3_self_parent_dropped :
    jsTruthyS (ERec.parentPath
        (ERec.mk (some "A") (some "T") (some "A") (some "A"))) = true ∧
    rootIdxs [ERec.mk (some "A") (some "T") (some "A") (some "A")] = [] ∧
    (dfsIdxs [ERec.mk (some "A") (some "T") (some "A") (some "A")]).count 0 = 0 ∧
    buildForest [ERec.mk (some "A") (some "T") (some "A") (some "A")] = [] :=
  ⟨by decide, by decide, by decide, rfl⟩

theorem get?_append_one {recs : List ERec} {r : ERec} {j : Nat}
    (hj : j < recs.length) : (recs ++ [r]).get? j = recs.get? j := by
  rw [List.get?_eq_getElem?, List.get?_eq_getElem?, List.getElem?_append_left hj]

theorem get?_append_last (recs : List ERec) (r : ERec) :
    (recs ++ [r]).get? recs.length = some r := by
  rw [List.get?_eq_getElem?, List.getElem?_concat_length]

theorem length_append_one (recs : List ERec) (r : ERec) :
    (recs ++ [r]).length = recs.length + 1 := by
  simp

theorem pathKeyAt_append {recs : List ERec} {r : ERec} {j : Nat}
    (hj : j < recs.length) : pathKeyAt (recs ++ [r]) j = pathKeyAt recs j := by
  rw [pathKeyAt, pathKeyAt, get?_append_one hj]

theorem parentIdx_append {recs : List ERec} {r : ERec} {i : Nat}
    (hi : i < recs.length) : parentIdx (recs ++ [r]) i = parentIdx recs i := by
  cases hg : recs.get? i with
  | none =>
      exfalso
      rw [List.get?_eq_none] at hg
      omega
  | some x =>
      have hg2 : (recs ++ [r]).get? i = some x := by rw [get?_append_one hi, hg]
      rw [parentIdx_of_get? hg2, parentIdx_of_get? hg]
      by_cases ht : jsTruthyS x.parentPath
      · rw [if_pos ht, if_pos ht]
        congr 1
        apply List.filter_congr
        intro j hj
        rw [List.mem_range] at hj
        rw [pathKeyAt_append (by omega)]
      · rw [if_neg ht, if_neg ht]

theorem ancChainF_append {recs : List ERec} {r : ERec} :
    ∀ f i, i < recs.length → ancChainF (recs ++ [r]) f i = ancChainF recs f i := by
  intro f
  induction f with
  | zero => intro i hi; rfl
  | succ f ih =>
      intro i hi
      rw [ancChainF, ancChainF, parentIdx_append hi]
      congr 1
      cases hp : parentIdx recs i with
      | none => rfl
      | some j =>
          simp only
          by_cases hj : j < i
          · rw [if_pos hj, if_pos hj]
            exact ih j (by omega)
          · rw [if_neg hj, if_neg hj]

theorem ancChain_append {recs : List ERec} {r : ERec} {i : Nat}
    (hi : i < recs.length) : ancChain (recs ++ [r]) i = ancChain recs i :=
  ancChainF_append i i hi

theorem rootIdxs_append (recs : List ERec) (r : ERec) :
    rootIdxs (recs ++ [r]) =
      rootIdxs recs ++
        (if parentIdx (recs ++ [r]) recs.length = none then [recs.length]
         else []) := by
  rw [rootIdxs, rootIdxs, length_append_one, List.range_succ, List.filter_append]
  congr 1
  · apply List.filter_congr
    intro i hi
    rw [List.mem_range] at hi
    rw [parentIdx_append hi]
  · by_cases hp : parentIdx (recs ++ [r]) recs.length = none
    · rw [if_pos hp, List.filter_cons, if_pos (by simp [hp]), List.filter_nil]
    · rw [if_neg hp, List.filter_cons, if_neg (by simp [hp]), List.filter_nil]

theorem childIdxs_append_none {recs : List ERec} {r : ERec}
    (hp : parentIdx (recs ++ [r]) recs.length = none) :
    ∀ i, childIdxs (recs ++ [r]) i = childIdxs recs i := by
  intro i
  rw [childIdxs, childIdxs, length_append_one, List.range_succ, List.filter_append]
  have h2 : (List.range recs.length).filter
      (fun j => decide (i < j) && decide (parentIdx (recs ++ [r]) j = some i)) =
      childIdxs recs i := by
    rw [childIdxs]
    apply List.filter_congr
    intro j hj
    rw [List.mem_range] at hj
    rw [parentIdx_append hj]
  rw [h2, List.filter_cons, if_neg (by simp [hp]), List.filter_nil,
    List.append_nil, childIdxs]

theorem childIdxs_append_some_self {recs : List ERec} {r : ERec} {p : Nat}
    (hp : parentIdx (recs ++ [r]) recs.length = some p) (hpl : p < recs.length) :
    childIdxs (recs ++ [r]) p = childIdxs recs p ++ [recs.length] := by
  rw [childIdxs, childIdxs, length_append_one, List.range_succ, List.filter_append]
  congr 1
  · apply List.filter_congr
    intro j hj
    rw [List.mem_range] at hj
    rw [parentIdx_append hj]
  · rw [List.filter_cons, if_pos (by simp [hp, hpl]), List.filter_nil]

theorem childIdxs_append_some_other {recs : List ERec} {r : ERec} {p : Nat}
    (hp : parentIdx (recs ++ [r]) recs.length = some p) :
    ∀ i, i ≠ p → childIdxs (recs ++ [r]) i = childIdxs recs i := by
  intro i hip
  rw [childIdxs, childIdxs, length_append_one, List.range_succ, List.filter_append]
  have h2 : (List.range recs.length).filter
      (fun j => decide (i < j) && decide (parentIdx (recs ++ [r]) j = some i)) =
      childIdxs recs i := by
    rw [childIdxs]
    apply List.filter_congr
    intro j hj
    rw [List.mem_range] at hj
    rw [parentIdx_append hj]
  rw [h2, List.filter_cons, if_neg (by simp [hp]; omega), List.filter_nil,
    List.append_nil, childIdxs]

theorem childIdxs_append_new (recs : List ERec) (r : ERec) :
    childIdxs (recs ++ [r]) recs.length = [] := by
  apply childIdxs_nil_of_ge
  rw [length_append_one]

theorem docOrderOK_spec {recs : List ERec} (h : docOrderOK recs = true) :
    ∀ i j, i < recs.length → parentIdx recs i = some j →
      0 < i ∧ j ∈ ancChain recs (i - 1) := by
  intro i j hi hp
  rw [docOrderOK, List.all_eq_true] at h
  have hx := h i (List.mem_range.mpr hi)
  rw [hp] at hx
  change (decide (0 < i) && decide (j ∈ ancChain recs (i - 1))) = true at hx
  rw [Bool.and_eq_true, decide_eq_true_eq, decide_eq_true_eq] at hx
  exact hx

theorem docOrderOK_no_self {recs : List ERec} (h : docOrderOK recs = true) :
    ∀ k, k < recs.length → parentIdx recs k ≠ some k := by
  intro k hk hp
  obtain ⟨h0, hmem⟩ := docOrderOK_spec h k k hk hp
  have := mem_ancChain_le hmem
  omega

theorem docOrderOK_restrict {recs : List ERec} {r : ERec}
    (h : docOrderOK (recs ++ [r]) = true) : docOrderOK recs = true := by
  rw [docOrderOK, List.all_eq_true]
  intro i hi
  rw [List.mem_range] at hi
  cases hp : parentIdx recs i with
  | none => rfl
  | some j =>
      have hp2 : parentIdx (recs ++ [r]) i = some j := by
        rw [parentIdx_append hi]; exact hp
      obtain ⟨h0, hmem⟩ := docOrderOK_spec h i j (by simp; omega) hp2
      rw [ancChain_append (by omega)] at hmem
      simp only [decide_eq_true_eq, Bool.and_eq_true]
      exact ⟨h0, hmem⟩

theorem subIdxs_infix_of_child {recs : List ERec} {j c : Nat}
    (hc : c ∈ childIdxs recs j) :
    (subIdxs recs c).IsInfix (subIdxs recs j) := by
  rw [subIdxs_unfold recs j]
  refine List.IsInfix.trans ?_ (List.infix_cons (List.infix_refl _))
  exact List.infix_of_mem_flatten (List.mem_map_of_mem _ hc)

theorem subIdxs_infix_of_chain {recs : List ERec} :
    ∀ {x j : Nat}, j ∈ ancChain recs x →
      (subIdxs recs x).IsInfix (subIdxs recs j) := by
  intro x
  induction x using Nat.strong_induction_on with
  | _ x ih =>
      intro j hj
      rw [ancChain_unfold] at hj
      rcases List.mem_cons.mp hj with hj | hj
      · subst hj; exact List.infix_refl _
      · cases hp : parentIdx recs x with
        | none => rw [hp] at hj; cases hj
        | some k =>
            rw [hp] at hj
            change j ∈ (if k < x then ancChain recs k else []) at hj
            by_cases hk : k < x
            · rw [if_pos hk] at hj
              have hxc : x ∈ childIdxs recs k :=
                mem_childIdxs.mpr ⟨parentIdx_lt_length hp, hk, hp⟩
              exact List.IsInfix.trans (subIdxs_infix_of_child hxc) (ih k hk hj)
            · rw [if_neg hk] at hj; cases hj

theorem subIdxs_infix_of_root {recs : List ERec} {rt : Nat}
    (hrt : rt ∈ rootIdxs recs) :
    (subIdxs recs rt).IsInfix (dfsIdxs recs) := by
  rw [dfsIdxs]
  exact List.infix_of_mem_flatten (List.mem_map_of_mem _ hrt)

theorem interval_of_infix_range {I : List Nat} {n : Nat}
    (h : I.IsInfix (List.range n)) {a b c : Nat}
    (ha : a ∈ I) (hb : b ∈ I) (hac : a ≤ c) (hcb : c ≤ b) : c ∈ I := by
  obtain ⟨u, v, huv⟩ := h
  have hpw : List.Pairwise (· < ·) (u ++ (I ++ v)) := by
    rw [← List.append_assoc, huv]
    exact List.pairwise_lt_range n
  have hcn : c ∈ List.range n := by
    have hbn : b ∈ List.range n := by
      rw [← huv, List.append_assoc]
      exact List.mem_append_right u (List.mem_append_left v hb)
    rw [List.mem_range] at hbn ⊢
    omega
  rw [← huv, List.append_assoc] at hcn
  rcases List.mem_append.mp hcn with hcu | hciv
  · exfalso
    rw [List.pairwise_append] at hpw
    have := hpw.2.2 c hcu a (List.mem_append_left v ha)
    omega
  · rcases List.mem_append.mp hciv with hci | hcv
    · exact hci
    · exfalso
      rw [List.pairwise_append] at hpw
      have h2 := hpw.2.1
      rw [List.pairwise_append] at h2
      have := h2.2.2 b hb c hcv
      omega

theorem subIdxs_append_none {recs : List ERec} {r : ERec}
    (hp : parentIdx (recs ++ [r]) recs.length = none) :
    ∀ k i, i < recs.length → recs.length ≤ i + k + 1 →
      subIdxs (recs ++ [r]) i = subIdxs recs i := by
  intro k
  induction k with
  | zero =>
      intro i hi hk
      rw [subIdxs_unfold, subIdxs_unfold, childIdxs_append_none hp,
        childIdxs_nil_of_ge (by omega)]
      simp
  | succ k ih =>
      intro i hi hk
      rw [subIdxs_unfold, subIdxs_unfold, childIdxs_append_none hp]
      congr 1
      congr 1
      apply List.map_congr_left
      intro c hc
      have hcc := mem_childIdxs.mp hc
      exact ih c hcc.1 (by omega)

theorem subIdxs_append_untouched {recs : List ERec} {r : ERec} {p : Nat}
    (hp : parentIdx (recs ++ [r]) recs.length = some p) :
    ∀ k i, i < recs.length → p ∉ subIdxs recs i → recs.length ≤ i + k + 1 →
      subIdxs (recs ++ [r]) i = subIdxs recs i := by
  intro k
  induction k with
  | zero =>
      intro i hi hpn hk
      have hip : i ≠ p := fun he => hpn (he ▸ self_mem_subIdxs recs i)
      rw [subIdxs_unfold, subIdxs_unfold,
        childIdxs_append_some_other hp i (fun he => hip he),
        childIdxs_nil_of_ge (by omega)]
      simp
  | succ k ih =>
      intro i hi hpn hk
      have hip : i ≠ p := fun he => hpn (he ▸ self_mem_subIdxs recs i)
      rw [subIdxs_unfold, subIdxs_unfold,
        childIdxs_append_some_other hp i (fun he => hip he)]
      congr 1
      congr 1
      apply List.map_congr_left
      intro c hc
      have hcc := mem_childIdxs.mp hc
      refine ih c hcc.1 ?_ (by omega)
      intro hpc
      apply hpn
      rw [subIdxs_unfold, List.mem_cons]
      right
      rw [List.mem_flatten]
      exact ⟨subIdxs recs c, List.mem_map_of_mem _ hc, hpc⟩

theorem last_of_pairwise_lt {L : List Nat} {c : Nat}
    (hpw : List.Pairwise (· < ·) L) (hc : c ∈ L) (hmax : ∀ x ∈ L, x ≤ c) :
    ∃ dl, L = dl ++ [c] ∧ ∀ x ∈ dl, x < c := by
  have hne : L ≠ [] := List.ne_nil_of_mem hc
  have hd := List.dropLast_append_getLast hne
  have hlt : ∀ x ∈ L.dropLast, x < L.getLast hne := by
    intro x hx
    have hpw2 : List.Pairwise (· < ·) (L.dropLast ++ [L.getLast hne]) := by
      rw [hd]; exact hpw
    rw [List.pairwise_append] at hpw2
    exact hpw2.2.2 x hx _ (List.mem_singleton_self _)
  have hcg : c = L.getLast hne := by
    have hcm : c ∈ L.dropLast ++ [L.getLast hne] := by rw [hd]; exact hc
    rcases List.mem_append.mp hcm with hcm | hcm
    · exfalso
      have h1 := hlt c hcm
      have h2 := hmax _ (List.getLast_mem hne)
      omega
    · exact (List.mem_singleton.mp hcm)
  refine ⟨L.dropLast, ?_, ?_⟩
  · rw [← hcg] at hd; exact hd.symm
  · intro x hx; rw [hcg]; exact hlt x hx

theorem no_larger_sibling {recs : List ERec}
    (hdfs : dfsIdxs recs = List.range recs.length) {cs c : Nat}
    (hcn : cs < recs.length)
    (hlast : recs.length - 1 ∈ subIdxs recs cs) (hcl : c < recs.length)
    (hgt : cs < c)
    (hdisj : List.Disjoint (subIdxs recs c) (subIdxs recs cs)) : False := by
  have hcd : cs ∈ dfsIdxs recs := by
    rw [hdfs]; exact List.mem_range.mpr hcn
  rw [dfsIdxs, List.mem_flatten] at hcd
  obtain ⟨l, hl, hcl2⟩ := hcd
  rw [List.mem_map] at hl
  obtain ⟨rt, hrt, hrl⟩ := hl
  subst hrl
  have h1 : (subIdxs recs cs).IsInfix (subIdxs recs rt) :=
    subIdxs_infix_of_chain (subIdxs_mem_chain hcl2)
  have h2 : (subIdxs recs cs).IsInfix (List.range recs.length) := by
    rw [← hdfs]
    exact h1.trans (subIdxs_infix_of_root hrt)
  have hc_in : c ∈ subIdxs recs cs :=
    interval_of_infix_range h2 (self_mem_subIdxs recs cs) hlast
      (Nat.le_of_lt hgt) (by omega)
  exact hdisj (self_mem_subIdxs recs c) hc_in

theorem subIdxs_append_graft {recs : List ERec} {r : ERec} {p : Nat}
    (hp : parentIdx (recs ++ [r]) recs.length = some p) (hpl : p < recs.length)
    (hdfs : dfsIdxs recs = List.range recs.length)
    (hlast : recs.length - 1 ∈ subIdxs recs p) :
    ∀ k j, j < recs.length → p ∈ subIdxs recs j → recs.length ≤ j + k + 1 →
      subIdxs (recs ++ [r]) j = subIdxs recs j ++ [recs.length] := by
  intro k
  induction k with
  | zero =>
      intro j hj hpj hk
      rw [subIdxs_unfold, childIdxs_nil_of_ge (by omega)] at hpj
      simp only [List.map_nil, List.flatten_nil, List.mem_singleton] at hpj
      subst hpj
      rw [subIdxs_unfold, childIdxs_append_some_self hp hpl,
        childIdxs_nil_of_ge (by omega), subIdxs_unfold,
        childIdxs_nil_of_ge (by omega)]
      have h2 : subIdxs (recs ++ [r]) recs.length = [recs.length] := by
        rw [subIdxs_unfold, childIdxs_append_new]
        simp
      simp [h2]
  | succ k ih =>
      intro j hj hpj hk
      by_cases hjp : j = p
      · subst hjp
        rw [subIdxs_unfold, childIdxs_append_some_self hp hpl, List.map_append,
          List.flatten_append]
        have h1 : (childIdxs recs j).map (subIdxs (recs ++ [r])) =
            (childIdxs recs j).map (subIdxs recs) := by
          apply List.map_congr_left
          intro c hc
          have hcc := mem_childIdxs.mp hc
          refine subIdxs_append_untouched hp k c hcc.1 ?_ (by omega)
          intro hmem
          have := mem_subIdxs_ge hmem
          omega
        have h2 : subIdxs (recs ++ [r]) recs.length = [recs.length] := by
          rw [subIdxs_unfold, childIdxs_append_new]
          simp
        rw [h1, subIdxs_unfold recs j]
        simp [h2]
      · have hpj2 := hpj
        rw [subIdxs_unfold, List.mem_cons] at hpj2
        rcases hpj2 with hpj2 | hpj2
        · exact absurd hpj2.symm hjp
        rw [List.mem_flatten] at hpj2
        obtain ⟨l, hl, hpl2⟩ := hpj2
        rw [List.mem_map] at hl
        obtain ⟨cs, hcs, hcsl⟩ := hl
        subst hcsl
        have hcsc := mem_childIdxs.mp hcs
        have hlastc : recs.length - 1 ∈ subIdxs recs cs :=
          subIdxs_trans hpl2 hlast
        have hmax : ∀ c ∈ childIdxs recs j, c ≤ cs := by
          intro c hc
          by_contra hgt
          have hcc := mem_childIdxs.mp hc
          refine no_larger_sibling hdfs hcsc.1 hlastc hcc.1 (by omega) ?_
          exact subIdxs_sibling_disjoint hcc.2.2 hcc.2.1 hcsc.2.2 hcsc.2.1
            (by omega)
        obtain ⟨dl, hdec, hdl⟩ :=
          last_of_pairwise_lt (childIdxs_asc recs j) hcs hmax
        rw [subIdxs_unfold, childIdxs_append_some_other hp j hjp, hdec,
          List.map_append, List.flatten_append, subIdxs_unfold recs j, hdec,
          List.map_append, List.flatten_append]
        have h1 : dl.map (subIdxs (recs ++ [r])) = dl.map (subIdxs recs) := by
          apply List.map_congr_left
          intro c hc
          have hcm : c ∈ childIdxs recs j := by
            rw [hdec]; exact List.mem_append_left _ hc
          have hcc := mem_childIdxs.mp hcm
          refine subIdxs_append_untouched hp k c hcc.1 ?_ (by omega)
          intro hmem
          have hcne : c ≠ cs := by have := hdl c hc; omega
          exact subIdxs_sibling_disjoint hcc.2.2 hcc.2.1 hcsc.2.2 hcsc.2.1
            hcne hmem hpl2
        have h2 : subIdxs (recs ++ [r]) cs = subIdxs recs cs ++ [recs.length] :=
          ih cs hcsc.1 hpl2 (by omega)
        rw [h1]
        simp [h2]

theorem dfsIdxs_eq_range_of_docOrderOK :
    ∀ recs : List ERec, docOrderOK recs = true →
      dfsIdxs recs = List.range recs.length := by
  intro recs
  induction recs using List.reverseRecOn with
  | nil => intro _; rfl
  | append_singleton recs r ih =>
      intro h
      have hdfs := ih (docOrderOK_restrict h)
      rw [length_append_one]
      cases hp : parentIdx (recs ++ [r]) recs.length with
      | none =>
          rw [dfsIdxs, rootIdxs_append, if_pos hp, List.map_append,
            List.flatten_append]
          have h1 : (rootIdxs recs).map (subIdxs (recs ++ [r])) =
              (rootIdxs recs).map (subIdxs recs) := by
            apply List.map_congr_left
            intro rt hrt
            exact subIdxs_append_none hp recs.length rt
              (mem_rootIdxs.mp hrt).1 (by omega)
          have h2 : subIdxs (recs ++ [r]) recs.length = [recs.length] := by
            rw [subIdxs_unfold, childIdxs_append_new]
            simp
          rw [h1, List.range_succ, ← hdfs, dfsIdxs]
          simp [h2]
      | some p =>
          have hsp := docOrderOK_spec h recs.length p
            (by rw [length_append_one]; omega) hp
          obtain ⟨h0, hchain⟩ := hsp
          have hple : p ≤ recs.length - 1 := mem_ancChain_le hchain
          have hpl : p < recs.length := by omega
          rw [ancChain_append (by omega)] at hchain
          have hlast : recs.length - 1 ∈ subIdxs recs p :=
            chain_mem_subIdxs hchain
          have hpd : p ∈ dfsIdxs recs := by
            rw [hdfs]; exact List.mem_range.mpr hpl
          rw [dfsIdxs, List.mem_flatten] at hpd
          obtain ⟨l, hl, hpl3⟩ := hpd
          rw [List.mem_map] at hl
          obtain ⟨rt, hrt, hrl⟩ := hl
          subst hrl
          have hrtc := mem_rootIdxs.mp hrt
          have hlastr : recs.length - 1 ∈ subIdxs recs rt :=
            subIdxs_trans hpl3 hlast
          have hmax : ∀ x ∈ rootIdxs recs, x ≤ rt := by
            intro x hx
            by_contra hgt
            have hxc := mem_rootIdxs.mp hx
            refine no_larger_sibling hdfs hrtc.1 hlastr hxc.1 (by omega) ?_
            exact subIdxs_root_disjoint hxc.2 hrtc.2 (by omega)
          obtain ⟨dl, hdec, hdl⟩ :=
            last_of_pairwise_lt (rootIdxs_asc recs) hrt hmax
          rw [dfsIdxs, rootIdxs_append, if_neg (by simp [hp]), List.append_nil,
            hdec, List.map_append, List.flatten_append, List.range_succ,
            ← hdfs, dfsIdxs, hdec, List.map_append, List.flatten_append]
          have h1 : dl.map (subIdxs (recs ++ [r])) = dl.map (subIdxs recs) := by
            apply List.map_congr_left
            intro x hx
            have hxm : x ∈ rootIdxs recs := by
              rw [hdec]; exact List.mem_append_left _ hx
            have hxc := mem_rootIdxs.mp hxm
            refine subIdxs_append_untouched hp recs.length x hxc.1 ?_ (by omega)
            intro hmem
            have hxne : x ≠ rt := by have := hdl x hx; omega
            exact subIdxs_root_disjoint hxc.2 hrtc.2 hxne hmem hpl3
          have h2 : subIdxs (recs ++ [r]) rt = subIdxs recs rt ++ [recs.length] :=
            subIdxs_append_graft hp hpl hdfs hlast recs.length rt hrtc.1 hpl3
              (by omega)
          rw [h1]
          simp [h2]

theorem preNT_eq (n t p q : String) (cs : List TreeNode) :
    (TreeNode.mk n t p q cs).preNT = (n, t) :: (cs.map TreeNode.preNT).flatten := by
  rw [TreeNode.preNT, List.attach_map_val]

theorem preNT_buildNodeF (recs : List ERec) :
    ∀ f i, (buildNodeF recs f i).preNT =
      (subIdxsF recs f i).map
        (fun k => ((fieldsAt recs k).1, (fieldsAt recs k).2.1)) := by
  intro f
  induction f with
  | zero =>
      intro i
      rw [buildNodeF, subIdxsF, preNT_eq]
      simp
  | succ f ih =>
      intro i
      rw [buildNodeF, subIdxsF, preNT_eq, List.map_cons, List.map_flatten,
        List.map_map, List.map_map]
      congr 2
      apply List.map_congr_left
      intro c _
      simp only [Function.comp_def]
      exact ih c

theorem forestPreNT_buildForest (recs : List ERec) :
    forestPreNT (buildForest recs) =
      (dfsIdxs recs).map
        (fun k => ((fieldsAt recs k).1, (fieldsAt recs k).2.1)) := by
  rw [forestPreNT, buildForest, dfsIdxs, List.map_map, List.map_flatten,
    List.map_map]
  congr 1
  apply List.map_congr_left
  intro rt _
  simp only [Function.comp_def]
  exact preNT_buildNodeF recs recs.length rt

theorem range_map_fields (recs : List ERec) :
    (List.range recs.length).map
        (fun k => ((fieldsAt recs k).1, (fieldsAt recs k).2.1)) =
      recs.map (fun x => (tmplOpt x.name, jsOrStr x.type "UNKNOWN")) := by
  apply List.ext_getElem
  · simp
  · intro i h1 h2
    simp only [List.length_map, List.length_range] at h1
    rw [List.getElem_map, List.getElem_map, List.getElem_range]
    have hr : recAt recs i = recs[i] := by
      rw [recAt, List.get?_eq_getElem?, List.getElem?_eq_getElem h1]
      rfl
    rw [fieldsAt, hr]

/-- C1 (amended): `buildTreeFromAnatomy` of part_002 applies no re-sorting to
an explicit record array, and whenever the array lists records in document
order — every record that resolves a parent resolves it to a weak ancestor of
the immediately preceding record (`docOrderOK`) — the depth-first index order
of the built forest is exactly the input order `0, 1, …, n-1`, so the
depth-first `(name, type)` sequence of the forest equals the input records'
`(name, type || 'UNKNOWN')` sequence verbatim. -/
theorem c1_explicit_sequence_dfs_order (recs : List ERec)
    (h : docOrderOK recs = true) :
    buildTreeFromAnatomy (Anat.arr recs) = some (buildForest recs) ∧
    dfsIdxs recs = List.range recs.length ∧
    forestPreNT (buildForest recs) =
      recs.map (fun x => (tmplOpt x.name, jsOrStr x.type "UNKNOWN")) := by
  refine ⟨rfl, dfsIdxs_eq_range_of_docOrderOK recs h, ?_⟩
  rw [forestPreNT_buildForest, dfsIdxs_eq_range_of_docOrderOK recs h,
    range_map_fields]

/-- Witness for C1 at a concrete document-order sequence `A, C (child of A),
B`: depth-first order is the input order. -/
theorem c1_explicit_sequence_dfs_order_witness :
    buildTreeFromAnatomy (Anat.arr
        [ERec.mk (some "A") (some "F") (some "A") none,
         ERec.mk (some "C") (some "T") (some "C") (some "A"),
         ERec.mk (some "B") (some "F") (some "B") none]) =
      some (buildForest
        [ERec.mk (some "A") (some "F") (some "A") none,
         ERec.mk (some "C") (some "T") (some "C") (some "A"),
         ERec.mk (some "B") (some "F") (some "B") none]) ∧
    dfsIdxs [ERec.mk (some "A") (some "F") (some "A") none,
         ERec.mk (some "C") (some "T") (some "C") (some "A"),
         ERec.mk (some "B") (some "F") (some "B") none] =
      List.range ([ERec.mk (some "A") (some "F") (some "A") none,
         ERec.mk (some "C") (some "T") (some "C") (some "A"),
         ERec.mk (some "B") (some "F") (some "B") none] : List ERec).length ∧
    forestPreNT (buildForest
        [ERec.mk (some "A") (some "F") (some "A") none,
         ERec.mk (some "C") (some "T") (some "C") (some "A"),
         ERec.mk (some "B") (some "F") (some "B") none]) =
      [ERec.mk (some "A") (some "F") (some "A") none,
         ERec.mk (some "C") (some "T") (some "C") (some "A"),
         ERec.mk (some "B") (some "F") (some "B") none].map
        (fun x => (tmplOpt x.name, jsOrStr x.type "UNKNOWN")) :=
  c1_explicit_sequence_dfs_order _ (by decide)

unseal TreeNode.preNT in
/-- Counterexample to C1 as stated: the explicit sequence `A, B, C` where `C`
names `A` as parent is valid input, yet the built forest's depth-first order
is `A, C, B` — index order `[0, 2, 1]` — not the input order. -/
theorem c1_dfs_not_input_order :
    dfsIdxs [ERec.mk (some "A") (some "F") (some "A") none,
         ERec.mk (some "B") (some "F") (some "B") none,
         ERec.mk (some "C") (some "T") (some "C") (some "A")] = [0, 2, 1] ∧
    forestPreNT (buildForest
        [ERec.mk (some "A") (some "F") (some "A") none,
         ERec.mk (some "B") (some "F") (some "B") none,
         ERec.mk (some "C") (some "T") (some "C") (some "A")]) ≠
      [ERec.mk (some "A") (some "F") (some "A") none,
         ERec.mk (some "B") (some "F") (some "B") none,
         ERec.mk (some "C") (some "T") (some "C") (some "A")].map
        (fun x => (tmplOpt x.name, jsOrStr x.type "UNKNOWN")) := by
  constructor
  · decide
  · set_option maxRecDepth 4000 in decide
